import Mathlib

/-!
# Shannon–Fano codec: a shallow embedding of `shannon.go`

This file embeds the Go package `shannon` (file `shannon.go`) in Lean:

* `Code`, `Table`          — the table entry and the lookup table.
* `BuildTable` (with `pivotScan`, `updCode`, `divideAux`, `sortCodes`)
  — the recursive probability-balanced partitioning of `BuildTable`.
* `BuildTableFromString`, `BuildTableFromOrderedRunes` — the two
  convenience constructors.
* `Table.Encode` (with `encStep`, `encodeLoop`) — MSB-first bit packing
  into 32-bit words.
* `Table.Decode` (with `decodeLoop`) — bit-by-bit decoding.

Modelling conventions, chosen to mirror the Go source bit-exactly:

* Go `float64` probabilities are modelled by exact fraction arithmetic:
  the type `Fr` below is an integer numerator over a natural denominator,
  *not* normalised, with addition, subtraction, absolute value and
  comparison implemented by cross-multiplication.  The algorithm only
  ever adds, doubles, compares and takes absolute values of the weights,
  so this is the usual exact-real idealisation of the `float64` data
  flow; keeping fractions unnormalised makes every definition reducible
  by the kernel (`Rat` is not), so concrete runs can be settled by
  `decide`.
* Go `uint32` values are modelled as `ℕ` kept below `2 ^ 32` by taking
  `% 2 ^ 32` exactly where Go's fixed width wraps (left shifts).  A Go
  shift of a `uint32` by a count `≥ 32` yields `0`; `ℕ` right shifts
  already agree with this, and the one left shift whose count can reach
  or exceed the word width is modelled with an explicit branch.
* The Go `map` iteration producing the initial code list is modelled by
  an association list `List (Char × Fr)`; Go's unstable `sort.Slice` is
  modelled by a deterministic insertion sort with the same comparator.
* Fallible operations return `Except`/`Option` errors mirroring the
  `error` values of the Go source.
* Recursion that Go drives by slicing (`divide`) is given the list
  length as structural fuel; `BuildTable` supplies fuel equal to the
  list length, which the bound `1 ≤ p ≤ len - 1` on every split keeps
  sufficient (`divideAux` never hits fuel `0` on the calls it makes).
-/

set_option maxHeartbeats 1000000
set_option maxRecDepth 100000

/-- Exact (unnormalised) fraction: the idealisation of a Go `float64`
weight.  `den` is positive for every value the embedding constructs. -/
structure Fr where
  num : ℤ
  den : ℕ
  deriving DecidableEq, Repr

/-- The `float64` literal `0.0`. -/
def Fr.zero : Fr := ⟨0, 1⟩

/-- The `float64` literal `1.0`. -/
def Fr.one : Fr := ⟨1, 1⟩

/-- An integer weight `n` (e.g. a power of two). -/
def Fr.ofNat (n : ℕ) : Fr := ⟨n, 1⟩

/-- The quotient `n / d` of Go's constructors (`float64(n) / float64(d)`). -/
def mkFr (n : ℤ) (d : ℕ) : Fr := ⟨n, d⟩

/-- Go `x + y` on weights. -/
def Fr.add (x y : Fr) : Fr := ⟨x.num * y.den + y.num * x.den, x.den * y.den⟩

/-- Go `x - y` on weights. -/
def Fr.sub (x y : Fr) : Fr := ⟨x.num * y.den - y.num * x.den, x.den * y.den⟩

/-- Go `x < y` on weights (cross-multiplication; denominators are positive). -/
def Fr.blt (x y : Fr) : Bool := x.num * y.den < y.num * x.den

/-- Go `prob := 0.0; for … { prob += code.Prob }`. -/
def Fr.sum (l : List Fr) : Fr := l.foldl Fr.add Fr.zero

/-- Go `math.Abs((prob - left) - left)` — the scanned difference. -/
def ediff (total left : Fr) : Fr := ⟨|(Fr.sub (Fr.sub total left) left).num|,
  (Fr.sub (Fr.sub total left) left).den⟩

/-- `shannon.go` lines 32–38: a Shannon-Fano code point.
`Bits uint32` is a `ℕ` kept `< 2^32`; `Size int` is a `ℕ` (never negative). -/
structure Code where
  char : Char
  prob : Fr
  bits : ℕ
  size : ℕ
  deriving DecidableEq, Repr

/-- `shannon.go` line 41: `type Table map[rune]Code`, modelled as the list of
entries (Go builds the map from the `codes` slice; keys are the `char` fields). -/
abbrev Table := List Code

/-- `shannon.go` lines 82–91, the pivot-search loop of `divide`:
`for p = 1; p < len(codes)-1; p++ { if diff := Abs((prob-left)-left); diff < best
{ best = diff } else { break }; left += codes[p].Prob }`.
`rest` is the list of probabilities `codes[1], …, codes[len-2]` still scannable
(the loop body at index `p` reads `codes[p].Prob` only after accepting), `total`
is `prob`, and `p` carries the loop counter. -/
def pivotScan (total : Fr) : List Fr → Fr → Fr → ℕ → ℕ
  | [], _, _, p => p
  | q :: rest, left, best, p =>
    if Fr.blt (ediff total left) best then
      pivotScan total rest (Fr.add left q) (ediff total left) (p + 1)
    else p

/-- `shannon.go` lines 77–91: the whole pivot search of `divide` on the
probability column of a sub-slice: `left` starts at `codes[0].Prob`, `best`
at `1.0`, `p` at `1`, and the loop stops before index `len-1`. -/
def pivotGo (probs : List Fr) : ℕ :=
  pivotScan (Fr.sum probs) ((probs.drop 1).dropLast) (probs.headD Fr.zero) Fr.one 1

/-- Modelled from the spec: the greedy pivot scan exactly as §4.1/C6 word it —
"at each step compute `diff = |total_sum - 2*left_sum|`; if `diff` is smaller
than the best difference seen so far, accept it, add `probability[p]` to
`left_sum`, and advance `p`; otherwise stop immediately".  `best = none` means
no difference has been seen yet, so the first comparison always accepts; the
scan stops when `p` reaches `length - 1` (a pivot must satisfy `1 ≤ p < length`). -/
def pivotScanSpec (total : Fr) : List Fr → Fr → Option Fr → ℕ → ℕ
  | [], _, _, p => p
  | q :: rest, left, best, p =>
    if (match best with
        | none => true
        | some b => Fr.blt (ediff total left) b) then
      pivotScanSpec total rest (Fr.add left q) (some (ediff total left)) (p + 1)
    else p

/-- Modelled from the spec: the pivot the claimed greedy scan chooses, starting
from `left_sum = probability[0]`, `p = 1` and an initial best of `init`
(`none` = "no best difference seen so far"). -/
def pivotSpec (init : Option Fr) (probs : List Fr) : ℕ :=
  pivotScanSpec (Fr.sum probs) ((probs.drop 1).dropLast) (probs.headD Fr.zero) init 1

/-- `shannon.go` lines 94–101, one entry of the update loop of `divide`:
`codes[i].Bits <<= 1; codes[i].Size++; if i >= p { codes[i].Bits |= 1 }`.
`one` is `i >= p`; the `uint32` shift wraps, hence the `% 2^32`. -/
def updCode (one : Bool) (c : Code) : Code :=
  ⟨c.char, c.prob, (if one then ((c.bits <<< 1) % 2 ^ 32) ||| 1 else (c.bits <<< 1) % 2 ^ 32),
    c.size + 1⟩

/-- `shannon.go` lines 64–106: the recursive `divide` closure, with the list
length as structural fuel (see the header note).  The in-place field updates
followed by `divide(codes[:p]); divide(codes[p:])` are rendered functionally:
update the two halves, recurse, and re-concatenate. -/
def divideAux : ℕ → List Code → List Code
  | 0, codes => codes
  | fuel + 1, codes =>
    if codes.length < 2 then codes
    else
      let p := pivotGo (codes.map Code.prob)
      divideAux fuel ((codes.take p).map (updCode false)) ++
        divideAux fuel ((codes.drop p).map (updCode true))

/-- `shannon.go` lines 58–61: `sort.Slice(codes, func(a, b int) bool { return
codes[a].Prob > codes[b].Prob })`, modelled by insertion sort with the same
comparator (a deterministic resolution of Go's unstable sort). -/
def insertCode (c : Code) : List Code → List Code
  | [] => [c]
  | d :: rest => if Fr.blt d.prob c.prob then c :: d :: rest else d :: insertCode c rest

/-- Descending-probability sort of the code list (stable: equal
probabilities keep their input order). -/
def sortCodes (codes : List Code) : List Code :=
  codes.foldl (fun acc c => insertCode c acc) []

/-- `shannon.go` lines 44–120: `BuildTable`.  The Go `map[rune]float64`
argument is modelled as an association list (its iteration order); the
resulting `Table` is the final code list (Go stores each code under its rune). -/
def BuildTable (freq : List (Char × Fr)) : Table :=
  let codes := freq.map fun rp => ⟨rp.1, rp.2, 0, 0⟩
  let sorted := sortCodes codes
  divideAux sorted.length sorted

/-- `shannon.go` lines 124–129: the per-rune frequency count of
`BuildTableFromString` (`freq[r] = freq[r] + 1`), keyed in first-occurrence
order like the association list models the Go map. -/
def bumpFreq : List (Char × ℕ) → Char → List (Char × ℕ)
  | [], r => [(r, 1)]
  | (c, n) :: rest, r => if c = r then (c, n + 1) :: rest else (c, n) :: bumpFreq rest r

/-- `shannon.go` lines 122–138: `BuildTableFromString`.  Go divides each count
by `len(s)` — the UTF-8 *byte* length — while iterating runes; the model keeps
that byte length. -/
def BuildTableFromString (s : List Char) : Table :=
  let freq := s.foldl bumpFreq []
  let bytes := (s.map Char.utf8Size).sum
  BuildTable (freq.map fun rn => (rn.1, mkFr rn.2 bytes))

/-- `shannon.go` lines 150–153: `prob[r] += float64(n-i) / m` keyed by rune,
in iteration order, duplicates summed in place. -/
def addProb : List (Char × Fr) → Char → Fr → List (Char × Fr)
  | [], r, q => [(r, q)]
  | (c, w) :: rest, r, q =>
    if c = r then (c, Fr.add w q) :: rest else (c, w) :: addProb rest r q

/-- `shannon.go` lines 143–156: `BuildTableFromOrderedRunes` with the
triangular weights `(n - i) / (n(n-1)/2 + n)`. -/
def BuildTableFromOrderedRunes (runes : List Char) : Table :=
  let n := runes.length
  let m := n * (n - 1) / 2 + n
  let prob := runes.enum.foldl (fun acc ir => addProb acc ir.2 (mkFr (n - ir.1 : ℕ) m)) []
  BuildTable prob

/-- The two `error` values `Table.Encode` can return
(`shannon.go` lines 161 and 172). -/
inductive EncErr where
  | emptyTable
  | unknownSymbol (r : Char)
  deriving DecidableEq, Repr

instance {ε α : Type} [DecidableEq ε] [DecidableEq α] : DecidableEq (Except ε α)
  | .ok x, .ok y =>
    if h : x = y then .isTrue (congrArg Except.ok h)
    else .isFalse fun e => h (Except.ok.inj e)
  | .error x, .error y =>
    if h : x = y then .isTrue (congrArg Except.error h)
    else .isFalse fun e => h (Except.error.inj e)
  | .ok _, .error _ => .isFalse fun e => Except.noConfusion e
  | .error _, .ok _ => .isFalse fun e => Except.noConfusion e

/-- OR a value into the last word of the vector:
`bitVec[len(bitVec)-1] |= x`.  (`bitVec` is never empty when Go runs this —
`Encode` starts from one zero word and never shrinks the slice.) -/
def orLast (x : ℕ) : List ℕ → List ℕ
  | [] => []
  | [w] => [w ||| x]
  | w :: rest => w :: orLast x rest

/-- `shannon.go` lines 175–186, packing one code into the bit vector at bit
offset `size`: `n := size & 0x1F`; if `n + code.Size < 0x20` the code fits in
the current word, else the tail goes into the current word and a fresh word is
appended.  The appended word is `code.Bits << uint(0x20-m)` with
`m = code.Size - (0x20 - n)`; when `m > 32` the Go shift count `uint(0x20-m)`
wraps to a value `≥ 64`, and a `uint32` shifted by `≥ 32` is `0`. -/
def encStep (c : Code) (v : List ℕ) (size : ℕ) : List ℕ :=
  let n := size % 32
  if n + c.size < 32 then
    orLast ((c.bits <<< (32 - n - c.size)) % 2 ^ 32) v
  else
    let m := c.size - (32 - n)
    orLast (c.bits >>> m) v ++ [if m ≤ 32 then (c.bits <<< (32 - m)) % 2 ^ 32 else 0]

/-- `shannon.go` lines 168–190: the encoding loop over the runes of `s`,
carrying the growing bit vector and the running total `size`. -/
def encodeLoop (t : Table) : List Char → List ℕ → ℕ → Except EncErr (List ℕ × ℕ)
  | [], v, size => .ok (v, size)
  | r :: rest, v, size =>
    match t.find? fun c => c.char = r with
    | none => .error (.unknownSymbol r)
    | some c => encodeLoop t rest (encStep c v size) (size + c.size)

/-- `shannon.go` lines 159–193: `Table.Encode`.  Fails on an empty table,
otherwise starts from one zero word and bit offset `0`. -/
def Table.Encode (t : Table) (s : List Char) : Except EncErr (List ℕ × ℕ) :=
  if t.length = 0 then .error .emptyTable
  else encodeLoop t s [0] 0

/-- The three `error` values `Table.Decode` can return
(`shannon.go` lines 202, 217 and 242). -/
inductive DecErr where
  | invalidVector
  | noMatchingCode
  | trailingBits
  deriving DecidableEq, Repr

/-- `shannon.go` lines 212–238: the decoding loop.  `rem` is `size - i` (the
loop runs while `i < size`), `bits`/`n` the accumulator pair, `v` the current
word, `ws` the unread words, `acc` the output built so far.  Each step shifts
the top bit of `v` into `bits` (both `uint32`, hence the `% 2^32`), errors with
the Go line-217 message when `n` exceeds 32 — note Go returns `""`, not the
partial result, at that point — refills `v` from `ws` whenever `i` crosses a
word boundary (`ws` cannot be exhausted there thanks to the line-201 length
check, so the `headD 0` default is never exercised), and scans the table for an
entry matching `(bits, n)` exactly. -/
def decodeLoop (t : Table) : ℕ → ℕ → ℕ → ℕ → ℕ → List ℕ → List Char →
    List Char × Option DecErr
  | 0, _, _, n, _, _, acc => if n ≠ 0 then (acc, some .trailingBits) else (acc, none)
  | rem + 1, i, bits, n, v, ws, acc =>
    let bits' := ((bits <<< 1) % 2 ^ 32) ||| (v >>> 31)
    if n + 1 > 32 then ([], some .noMatchingCode)
    else
      let v' := if (i + 1) % 32 = 0 then ws.headD 0 else (v <<< 1) % 2 ^ 32
      let ws' := if (i + 1) % 32 = 0 then ws.tail else ws
      match t.find? fun c => decide (c.size = n + 1 ∧ c.bits = bits') with
      | some c => decodeLoop t rem (i + 1) 0 0 v' ws' (acc ++ [c.char])
      | none => decodeLoop t rem (i + 1) bits' (n + 1) v' ws' acc

/-- `shannon.go` lines 196–246: `Table.Decode`.  Requires strictly more words
than `size/32` (line 201), pops the first word, and runs the loop for `size`
bits. -/
def Table.Decode (t : Table) (bitVec : List ℕ) (size : ℕ) : List Char × Option DecErr :=
  if bitVec.length ≤ size / 32 then ([], some .invalidVector)
  else decodeLoop t size 0 0 0 (bitVec.headD 0) bitVec.tail []

/-- Modelled from the spec (§7/C8): the same decoding loop, but returning the
best-effort partial result at the `NoMatchingCode` failure too, as the spec
asserts every decode error does.  Used to compare against the Go behaviour. -/
def decodeKeptLoop (t : Table) : ℕ → ℕ → ℕ → ℕ → ℕ → List ℕ → List Char →
    List Char × Option DecErr
  | 0, _, _, n, _, _, acc => if n ≠ 0 then (acc, some .trailingBits) else (acc, none)
  | rem + 1, i, bits, n, v, ws, acc =>
    let bits' := ((bits <<< 1) % 2 ^ 32) ||| (v >>> 31)
    if n + 1 > 32 then (acc, some .noMatchingCode)
    else
      let v' := if (i + 1) % 32 = 0 then ws.headD 0 else (v <<< 1) % 2 ^ 32
      let ws' := if (i + 1) % 32 = 0 then ws.tail else ws
      match t.find? fun c => decide (c.size = n + 1 ∧ c.bits = bits') with
      | some c => decodeKeptLoop t rem (i + 1) 0 0 v' ws' (acc ++ [c.char])
      | none => decodeKeptLoop t rem (i + 1) bits' (n + 1) v' ws' acc

/-- Modelled from the spec: `Table.Decode` as §4.3/§7 describe it — identical
to the Go decoder except that the partial result is kept on every failure. -/
def Table.DecodeKept (t : Table) (bitVec : List ℕ) (size : ℕ) :
    List Char × Option DecErr :=
  if bitVec.length ≤ size / 32 then ([], some .invalidVector)
  else decodeKeptLoop t size 0 0 0 (bitVec.headD 0) bitVec.tail []

/-- Modelled from the spec (§4.2/C5): the per-symbol packing step exactly as
the spec words it — `n = total_bits mod 32`, `remaining = 32 - n`; if
`code.length ≤ remaining` the code is shifted into place and ORed into the
current word *without appending*; only if `code.length > remaining` does it
span two words, the second holding the low `code.length - remaining` bits in
its most-significant positions.  Word arithmetic is 32-bit, so results are
reduced `% 2^32`. -/
def encStepSpec (c : Code) (v : List ℕ) (size : ℕ) : List ℕ :=
  if c.size ≤ 32 - size % 32 then
    orLast ((c.bits <<< ((32 - size % 32) - c.size)) % 2 ^ 32) v
  else
    orLast (c.bits >>> (c.size - (32 - size % 32))) v ++
      [((c.bits % 2 ^ (c.size - (32 - size % 32))) <<<
          (32 - (c.size - (32 - size % 32)))) % 2 ^ 32]

/-- Modelled from the spec, amended (C5): the same packing step with the fit
test made strict (`code.length < remaining`), so that a code exactly filling
the current word takes the spanning branch and appends a (zero) second word. -/
def encStepSpecStrict (c : Code) (v : List ℕ) (size : ℕ) : List ℕ :=
  if c.size < 32 - size % 32 then
    orLast ((c.bits <<< ((32 - size % 32) - c.size)) % 2 ^ 32) v
  else
    orLast (c.bits >>> (c.size - (32 - size % 32))) v ++
      [((c.bits % 2 ^ (c.size - (32 - size % 32))) <<<
          (32 - (c.size - (32 - size % 32)))) % 2 ^ 32]

/-! ## Concrete tables used by counterexamples -/

/-- 35 weights `2^34, 2^33, …, 2^0` on distinct symbols: at every level of the
recursion the scanned difference is exactly `1`, which is not `< best = 1.0`,
so `divide` always splits at `p = 1`, producing a "comb" of code lengths
`1, 2, …, 34, 34` — deeper than the 32-bit `Bits` field. -/
def combFreq : List (Char × Fr) :=
  (List.range 35).map fun i => (Char.ofNat (65 + i), Fr.ofNat (2 ^ (34 - i)))

/-- A two-entry prefix-free table (`a ↦ 0`, `b ↦ 10`) under which the bit
pattern `11⋯` matches nothing, for exercising the `NoMatchingCode` path. -/
def t8ex : Table := [⟨'a', mkFr 1 2, 0, 1⟩, ⟨'b', mkFr 1 4, 2, 2⟩]

/-- A table holding a 31-bit and a 34-bit code; the 34-bit code crosses two
word boundaries when packed at bit offset 31. -/
def t10ex : Table := [⟨'x', mkFr 1 2, 0, 31⟩, ⟨'y', mkFr 1 4, 4294967294, 34⟩]

/-! ## Counterexamples -/

/-- C1, counterexample: a table built from the one-symbol distribution
`{a ↦ 1.0}` gives `a` the degenerate code of length 0; `Encode` of `"a"`
succeeds with zero bits, but `Decode` of that output returns the empty
string with no error — not `"a"` — so the round-trip claim fails as stated. -/
theorem c1_counterexample :
    (BuildTable [('a', Fr.one)]).Encode ['a'] = .ok ([0], 0) ∧
    (BuildTable [('a', Fr.one)]).Decode [0] 0 = ([], none) ∧
    ([] : List Char) ≠ ['a'] := by
  decide

/-- C2, counterexample: on the 35-symbol comb distribution `combFreq`,
`BuildTable` produces an entry with code length 34 whose `uint32` `Bits`
field has wrapped; its first bit (as stored) equals the 1-bit code of the
first entry, so the two distinct entries truncated to `min 1 34 = 1` bits
coincide — the prefix-free claim fails for this table. -/
theorem c2_counterexample :
    ((BuildTable combFreq).map fun c => (c.bits, c.size))[0]? = some (0, 1) ∧
    ((BuildTable combFreq).map fun c => (c.bits, c.size))[33]? = some (4294967294, 34) ∧
    0 >>> (1 - min 1 34) = 4294967294 >>> (34 - min 1 34) := by
  decide

/-- C3, counterexample: for `"aab"` the two-symbol root split gives *both*
symbols 1-bit codes (`a ↦ 0`, `b ↦ 1`); `b`'s code has length 1, not 2, and
`Encode "aab"` yields `total_bits = 3`, not 4. -/
theorem c3_counterexample :
    (BuildTableFromString ['a', 'a', 'b']).map (fun c => (c.char, c.bits, c.size)) =
      [('a', 0, 1), ('b', 1, 1)] ∧
    (BuildTableFromString ['a', 'a', 'b']).Encode ['a', 'a', 'b'] =
      .ok ([536870912], 3) ∧
    (1 : ℕ) ≠ 2 ∧ (3 : ℕ) ≠ 4 := by
  decide

/-- C3, the amended concrete scenario: `"aab"` gives `a` the 1-bit code `0`
and `b` the 1-bit code `1`, `Encode` packs `0,0,1` into one word with
`total_bits = 3`, and `Decode` of that output returns exactly `"aab"`. -/
theorem c3_scenario_amended :
    (BuildTableFromString ['a', 'a', 'b']).map (fun c => (c.char, c.bits, c.size)) =
      [('a', 0, 1), ('b', 1, 1)] ∧
    (BuildTableFromString ['a', 'a', 'b']).Encode ['a', 'a', 'b'] =
      .ok ([536870912], 3) ∧
    (BuildTableFromString ['a', 'a', 'b']).Decode [536870912] 3 =
      (['a', 'a', 'b'], none) := by
  decide

/-- C4, counterexample: `BuildTable` has no error channel at all; fed the map
`{a ↦ -1.0, b ↦ 1.0}` — whose first weight is negative — it silently returns
an ordinary two-entry table instead of failing with `InvalidInput`. -/
theorem c4_counterexample :
    Fr.blt (mkFr (-1) 1) Fr.zero = true ∧
    BuildTable [('a', mkFr (-1) 1), ('b', Fr.one)] =
      [⟨'b', Fr.one, 0, 1⟩, ⟨'a', mkFr (-1) 1, 1, 1⟩] := by
  decide

/-- C5, counterexample: packing a 1-bit code at bit offset 31 (`n = 31`,
`remaining = 1`, `length = remaining`): the Go encoder takes the spanning
branch and appends a fresh (zero) word, while the claimed rule
(`length ≤ remaining` ⟹ no append) stays in one word. -/
theorem c5_counterexample :
    encStep ⟨'a', Fr.one, 1, 1⟩ [0] 31 = [1, 0] ∧
    encStepSpec ⟨'a', Fr.one, 1, 1⟩ [0] 31 = [1] ∧
    ([1, 0] : List ℕ) ≠ [1] := by
  decide

/-- C6, counterexample: on the sorted probabilities `[1, 0, 0]` (a legal
distribution — zeros are allowed) the first scanned difference is
`|1 - 2·1| = 1`.  Go's loop starts `best = 1.0`, so `1 < 1` fails and it
stops at `p = 1`; the claimed scan has seen no difference yet, accepts, and
stops at `p = 2`.  The built table shows the pivot actually used: `a` gets a
1-bit code (pivot 1), whereas pivot 2 would have split `{a, b} | {c}`. -/
theorem c6_counterexample :
    pivotGo [Fr.one, Fr.zero, Fr.zero] = 1 ∧
    pivotSpec none [Fr.one, Fr.zero, Fr.zero] = 2 ∧ (1 : ℕ) ≠ 2 ∧
    (BuildTable [('a', Fr.one), ('b', Fr.zero), ('c', Fr.zero)]).map
        (fun c => (c.char, c.size)) = [('a', 1), ('b', 2), ('c', 2)] := by
  decide

/-- C8, counterexample: decoding `0 1111…` (34 bits) against the table
`{a ↦ 0, b ↦ 10}` first decodes `a`, then accumulates 33 unmatched bits and
fails with `NoMatchingCode` — and the Go decoder returns the *empty* string,
discarding the already-decoded `a` that the spec-described best-effort decoder
(`Table.DecodeKept`) returns. -/
theorem c8_counterexample :
    Table.Decode t8ex [2147483647, 4294967295] 34 = ([], some .noMatchingCode) ∧
    Table.DecodeKept t8ex [2147483647, 4294967295] 34 =
      (['a'], some .noMatchingCode) ∧
    ([] : List Char) ≠ ['a'] := by
  decide

/-- C10, counterexample: encoding a 31-bit code followed by a 34-bit code
succeeds with `total_bits = 65` but only 2 words (the 34-bit code crosses two
word boundaries yet appends only one word), so `len = 2 ≠ 65/32 + 1 = 3` and
the output fails `Decode`'s own storage check. -/
theorem c10_counterexample :
    Table.Encode t10ex ['x', 'y'] = .ok ([0, 0], 65) ∧
    ([0, 0] : List ℕ).length ≠ 65 / 32 + 1 ∧
    Table.Decode t10ex [0, 0] 65 = ([], some .invalidVector) := by
  decide

/-! ## The pivot scan: Go loop vs. the spec's wording (C6) -/

/-- Once a best difference exists, the spec-worded scan and the Go loop agree
step for step. -/
theorem pivotScanSpec_some (total : Fr) :
    ∀ (rest : List Fr) (left b : Fr) (p : ℕ),
      pivotScanSpec total rest left (some b) p = pivotScan total rest left b p := by
  intro rest
  induction rest with
  | nil => intro left b p; rfl
  | cons q tl ih =>
    intro left b p
    simp only [pivotScanSpec, pivotScan]
    by_cases h : Fr.blt (ediff total left) b = true
    · simp only [h, if_true, ih]
    · simp only [h, if_false]
      simp only [Bool.not_eq_true] at h
      simp [h]

/-- C6, amended: the chosen pivot is the one produced by the claimed greedy
scan *with the best difference initialised to `1.0`* (so a first scanned
difference `≥ 1.0` stops the scan immediately at `p = 1`); with that one
correction the Go pivot search is exactly the spec's scan. -/
theorem c6_pivot_amended (probs : List Fr) :
    pivotGo probs = pivotSpec (some Fr.one) probs :=
  (pivotScanSpec_some (Fr.sum probs) ((probs.drop 1).dropLast)
    (probs.headD Fr.zero) Fr.one 1).symm

/-! ## The packing step: Go vs. the spec's wording (C5) -/

/-- Shifting into the top of a 32-bit word only keeps the low `m` bits:
`(b <<< (32 - m)) % 2^32 = ((b % 2^m) <<< (32 - m)) % 2^32`. -/
theorem shiftLeft_top_mod (b m : ℕ) (hm : m ≤ 32) :
    (b <<< (32 - m)) % 2 ^ 32 = ((b % 2 ^ m) <<< (32 - m)) % 2 ^ 32 := by
  rw [Nat.shiftLeft_eq, Nat.shiftLeft_eq]
  have h1 : (2 : ℕ) ^ 32 = 2 ^ m * 2 ^ (32 - m) := by
    rw [← pow_add]; congr 1; omega
  rw [h1, Nat.mul_mod_mul_right, Nat.mul_mod_mul_right,
    Nat.mod_mod_of_dvd _ dvd_rfl]

/-- C5, amended: the per-symbol packing rule holds with the fit test made
strict — a code of length `L` stays in the current word iff `L < remaining`
(`n + L < 32`), and whenever `L ≥ remaining` the code takes the spanning
branch, which appends a new word (a zero word in the exact-fill case
`L = remaining`).  For every code of length at most 32 the Go step and the
so-amended spec step coincide on every vector and bit offset. -/
theorem c5_step_amended (c : Code) (v : List ℕ) (size : ℕ) (h32 : c.size ≤ 32) :
    encStep c v size = encStepSpecStrict c v size := by
  have hn : size % 32 < 32 := Nat.mod_lt _ (by omega)
  simp only [encStep, encStepSpecStrict]
  by_cases hfit : size % 32 + c.size < 32
  · have h1 : c.size < 32 - size % 32 := by omega
    rw [if_pos hfit, if_pos h1]
  · have h1 : ¬ c.size < 32 - size % 32 := by omega
    have h2 : c.size - (32 - size % 32) ≤ 32 := by omega
    rw [if_neg hfit, if_neg h1, if_pos h2,
      shiftLeft_top_mod c.bits (c.size - (32 - size % 32)) h2]

/-! ## The decoder's storage check (C7) -/

/-- The decoding loop itself never reports `InvalidVector`; that error has a
single source, the up-front length check. -/
theorem decodeLoop_ne_invalid (t : Table) :
    ∀ rem i bits n v ws acc,
      (decodeLoop t rem i bits n v ws acc).2 ≠ some DecErr.invalidVector := by
  intro rem
  induction rem with
  | zero =>
    intro i bits n v ws acc
    simp only [decodeLoop]
    by_cases h : n ≠ 0 <;> simp [h]
  | succ r ih =>
    intro i bits n v ws acc
    simp only [decodeLoop]
    by_cases h : n + 1 > 32
    · simp [h]
    · simp only [if_neg h]
      cases hf : t.find? fun c => decide (c.size = n + 1 ∧ c.bits =
          ((bits <<< 1) % 2 ^ 32) ||| (v >>> 31)) <;>
        simp [hf, ih]

/-- C7: `Decode` fails with `InvalidVector` exactly when the vector does not
hold strictly more words than `total_bits / 32` — it demands
`len(bits) ≥ total_bits/32 + 1` before consuming any bits, and in that case
returns the empty result with the error. -/
theorem c7_storage_check (t : Table) (v : List ℕ) (size : ℕ) :
    ((t.Decode v size).2 = some DecErr.invalidVector ↔ v.length ≤ size / 32) ∧
    (v.length ≤ size / 32 → t.Decode v size = ([], some DecErr.invalidVector)) := by
  unfold Table.Decode
  by_cases h : v.length ≤ size / 32
  · simp [h]
  · simp [h, decodeLoop_ne_invalid]

/-! ## Partial results on decode failure (C8) -/

/-- The Go loop and the spec's best-effort loop produce the same error; on a
`NoMatchingCode` failure the Go loop returns the empty result where the
best-effort loop keeps the symbols decoded so far, and on every other outcome
the two results agree. -/
theorem decodeLoop_vs_kept (t : Table) :
    ∀ rem i bits n v ws acc,
      ((decodeLoop t rem i bits n v ws acc).2 =
        (decodeKeptLoop t rem i bits n v ws acc).2) ∧
      ((decodeLoop t rem i bits n v ws acc).2 = some DecErr.noMatchingCode →
        (decodeLoop t rem i bits n v ws acc).1 = []) ∧
      ((decodeLoop t rem i bits n v ws acc).2 ≠ some DecErr.noMatchingCode →
        (decodeLoop t rem i bits n v ws acc).1 =
          (decodeKeptLoop t rem i bits n v ws acc).1) := by
  intro rem
  induction rem with
  | zero =>
    intro i bits n v ws acc
    simp only [decodeLoop, decodeKeptLoop]
    by_cases h : n ≠ 0 <;> simp [h]
  | succ r ih =>
    intro i bits n v ws acc
    simp only [decodeLoop, decodeKeptLoop]
    by_cases h : n + 1 > 32
    · simp [h]
    · simp only [if_neg h]
      cases hf : t.find? fun c => decide (c.size = n + 1 ∧ c.bits =
          ((bits <<< 1) % 2 ^ 32) ||| (v >>> 31)) <;>
        simp only [hf] <;> exact ih ..

/-- C8, amended: every failing `Decode` call returns the best-effort partial
result *except* the `NoMatchingCode` failure, where the Go decoder discards
the symbols already decoded and returns the empty sequence (`InvalidVector`
happens before anything is decoded, and `TrailingBits` does keep the partial
result, as comparison with the spec-described `Table.DecodeKept` shows). -/
theorem c8_partial_amended (t : Table) (v : List ℕ) (size : ℕ) :
    ((t.Decode v size).2 = (t.DecodeKept v size).2) ∧
    ((t.Decode v size).2 = some DecErr.noMatchingCode →
      (t.Decode v size).1 = []) ∧
    ((t.Decode v size).2 ≠ some DecErr.noMatchingCode →
      (t.Decode v size).1 = (t.DecodeKept v size).1) := by
  unfold Table.Decode Table.DecodeKept
  by_cases h : v.length ≤ size / 32
  · simp [h]
  · simp only [if_neg h]
    exact decodeLoop_vs_kept ..

/-! ## `BuildTable` never fails and covers its input (C4) -/

/-- `insertCode` only repositions the inserted element. -/
theorem insertCode_perm (c : Code) (l : List Code) :
    (insertCode c l).Perm (c :: l) := by
  induction l with
  | nil => exact List.Perm.refl _
  | cons d rest ih =>
    simp only [insertCode]
    by_cases h : Fr.blt d.prob c.prob = true
    · simp [h]
    · simp only [h, if_false]
      exact (ih.cons d).trans (List.Perm.swap c d rest)

/-- The insertion sort is a permutation. -/
theorem sortCodes_perm (l : List Code) : (sortCodes l).Perm l := by
  have key : ∀ (l acc : List Code),
      (l.foldl (fun acc c => insertCode c acc) acc).Perm (acc ++ l) := by
    intro l
    induction l with
    | nil => intro acc; simp
    | cons c rest ih =>
      intro acc
      exact (ih (insertCode c acc)).trans
        (((insertCode_perm c acc).append_right rest).trans List.perm_middle.symm)
  simpa using key l []

/-- `divideAux` touches only the `bits`/`size` fields: the `(char, prob)`
column of the code list comes through unchanged, in order. -/
theorem divideAux_map_charProb :
    ∀ (fuel : ℕ) (codes : List Code),
      (divideAux fuel codes).map (fun c => (c.char, c.prob)) =
        codes.map fun c => (c.char, c.prob) := by
  intro fuel
  induction fuel with
  | zero => intro codes; rfl
  | succ f ih =>
    intro codes
    simp only [divideAux]
    by_cases h : codes.length < 2
    · simp [h]
    · rw [if_neg h]
      rw [List.map_append, ih, ih, List.map_map, List.map_map]
      have hupd : ∀ one : Bool,
          ((fun c => (c.char, c.prob)) ∘ updCode one) = fun c : Code => (c.char, c.prob) := by
        intro one; funext c; simp [updCode, Function.comp]
      rw [hupd, hupd, ← List.map_append, List.take_append_drop]

/-- `divideAux` preserves the symbol column. -/
theorem divideAux_map_char (fuel : ℕ) (codes : List Code) :
    (divideAux fuel codes).map Code.char = codes.map Code.char := by
  have h3 := congrArg (List.map Prod.fst) (divideAux_map_charProb fuel codes)
  simpa [List.map_map, Function.comp] using h3

/-- C4, amended: `BuildTable` performs no validation and cannot fail — in
particular a map containing negative probabilities is accepted like any other
(zero probabilities are allowed and probabilities need not sum to 1.0): for
*every* probability map it returns a table whose symbols are exactly the
map's keys. -/
theorem c4_buildTable_total (freq : List (Char × Fr)) :
    ((BuildTable freq).map Code.char).Perm (freq.map Prod.fst) := by
  unfold BuildTable
  rw [divideAux_map_char]
  have h4 := (sortCodes_perm (freq.map fun rp => ⟨rp.1, rp.2, 0, 0⟩)).map Code.char
  refine h4.trans ?_
  have h5 : (freq.map fun rp => (⟨rp.1, rp.2, 0, 0⟩ : Code)).map Code.char =
      freq.map Prod.fst := by
    simp [List.map_map, Function.comp]
  exact h5 ▸ List.Perm.refl _

/-! ## The partition tree: prefix-freeness by construction (C2)

`divideNAux` is `divideAux` with mathematically unbounded code values (no
`uint32` wrap): each `bits` field is the exact root-to-leaf path.  The Go
version agrees with it modulo `2^32`, hence exactly whenever every code
length stays `≤ 32`. -/

/-- The update step of `divide` on unbounded path bits. -/
def updCodeN (one : Bool) (c : Code) : Code :=
  ⟨c.char, c.prob, 2 * c.bits + (if one then 1 else 0), c.size + 1⟩

/-- `divideAux` on unbounded path bits. -/
def divideNAux : ℕ → List Code → List Code
  | 0, codes => codes
  | fuel + 1, codes =>
    if codes.length < 2 then codes
    else
      let p := pivotGo (codes.map Code.prob)
      divideNAux fuel ((codes.take p).map (updCodeN false)) ++
        divideNAux fuel ((codes.drop p).map (updCodeN true))

/-- `BuildTable` on unbounded path bits. -/
def BuildTableN (freq : List (Char × Fr)) : Table :=
  let codes := freq.map fun rp => ⟨rp.1, rp.2, 0, 0⟩
  let sorted := sortCodes codes
  divideNAux sorted.length sorted

/-- `c`'s stored bit pattern (of its given length) is a prefix of `d`'s. -/
def pref (c d : Code) : Prop :=
  c.size ≤ d.size ∧ d.bits >>> (d.size - c.size) = c.bits

/-- The pivot loop only moves forward, by at most the scannable length. -/
theorem pivotScan_bounds (total : Fr) :
    ∀ (rest : List Fr) (left best : Fr) (p : ℕ),
      p ≤ pivotScan total rest left best p ∧
        pivotScan total rest left best p ≤ p + rest.length := by
  intro rest
  induction rest with
  | nil => intro left best p; exact ⟨le_refl p, by simp [pivotScan]⟩
  | cons q tl ih =>
    intro left best p
    simp only [pivotScan]
    by_cases h : Fr.blt (ediff total left) best = true
    · rw [if_pos h]
      refine ⟨le_trans (by omega) (ih (Fr.add left q) (ediff total left) (p + 1)).1, ?_⟩
      have := (ih (Fr.add left q) (ediff total left) (p + 1)).2
      simpa [Nat.add_comm, Nat.add_assoc, Nat.add_left_comm] using this
    · rw [if_neg h]
      exact ⟨le_refl p, by simp⟩

/-- A list of length ≥ 2 is always split at a pivot `1 ≤ p ≤ len - 1`. -/
theorem pivotGo_bounds (probs : List Fr) (h2 : 2 ≤ probs.length) :
    1 ≤ pivotGo probs ∧ pivotGo probs ≤ probs.length - 1 := by
  unfold pivotGo
  have hb := pivotScan_bounds (Fr.sum probs) ((probs.drop 1).dropLast)
    (probs.headD Fr.zero) Fr.one 1
  have hlen : ((probs.drop 1).dropLast).length = probs.length - 2 := by
    simp only [List.length_dropLast, List.length_drop]
    omega
  omega

/-- Everything `divideNAux` builds from a uniformly-started list: the
`(char, prob)` column is unchanged; every output code extends the common
starting pattern `(b, s)`; after a genuine split every code is strictly
longer than `s`; and the outputs are pairwise non-prefix. -/
theorem divideN_spec :
    ∀ (fuel : ℕ) (codes : List Code) (b s : ℕ),
      codes.length ≤ fuel →
      (∀ c ∈ codes, c.bits = b ∧ c.size = s) →
      ((divideNAux fuel codes).map (fun c => (c.char, c.prob)) =
        codes.map fun c => (c.char, c.prob)) ∧
      (∀ c ∈ divideNAux fuel codes,
        s ≤ c.size ∧ c.bits >>> (c.size - s) = b ∧ c.bits < (b + 1) * 2 ^ (c.size - s)) ∧
      (2 ≤ codes.length → ∀ c ∈ divideNAux fuel codes, s + 1 ≤ c.size) ∧
      (divideNAux fuel codes).Pairwise fun c d => ¬ pref c d ∧ ¬ pref d c := by
  intro fuel
  induction fuel with
  | zero =>
    intro codes b s hf hu
    have : codes = [] := List.length_eq_zero.mp (by omega)
    subst this
    refine ⟨rfl, by simp [divideNAux], by simp, by simp [divideNAux]⟩
  | succ f ih =>
    intro codes b s hf hu
    by_cases hlt : codes.length < 2
    · have hd : divideNAux (f + 1) codes = codes := by
        simp [divideNAux, hlt]
      rw [hd]
      refine ⟨rfl, ?_, by omega, ?_⟩
      · intro c hc
        obtain ⟨hb, hs⟩ := hu c hc
        subst hb; subst hs
        simp
      · match codes, hlt with
        | [], _ => exact List.Pairwise.nil
        | [c], _ => simp
    · have hd : divideNAux (f + 1) codes =
          divideNAux f ((codes.take (pivotGo (codes.map Code.prob))).map (updCodeN false)) ++
            divideNAux f ((codes.drop (pivotGo (codes.map Code.prob))).map (updCodeN true)) := by
        rw [divideNAux, if_neg hlt]
      set p := pivotGo (codes.map Code.prob) with hp
      have hpb : 1 ≤ p ∧ p ≤ codes.length - 1 := by
        rw [hp]
        have := pivotGo_bounds (codes.map Code.prob) (by simp; omega)
        simpa using this
      -- the two updated halves are uniform again
      have huL : ∀ c ∈ (codes.take p).map (updCodeN false),
          c.bits = 2 * b ∧ c.size = s + 1 := by
        intro c hc
        obtain ⟨c', hc', rfl⟩ := List.mem_map.mp hc
        obtain ⟨hb, hs⟩ := hu c' (List.mem_of_mem_take hc')
        simp [updCodeN, hb, hs]
      have huR : ∀ c ∈ (codes.drop p).map (updCodeN true),
          c.bits = 2 * b + 1 ∧ c.size = s + 1 := by
        intro c hc
        obtain ⟨c', hc', rfl⟩ := List.mem_map.mp hc
        obtain ⟨hb, hs⟩ := hu c' (List.mem_of_mem_drop hc')
        simp [updCodeN, hb, hs]
      have hlL : ((codes.take p).map (updCodeN false)).length ≤ f := by
        simp only [List.length_map, List.length_take]
        omega
      have hlR : ((codes.drop p).map (updCodeN true)).length ≤ f := by
        simp only [List.length_map, List.length_drop]
        omega
      obtain ⟨ihL1, ihL2, _, ihL4⟩ := ih _ (2 * b) (s + 1) hlL huL
      obtain ⟨ihR1, ihR2, _, ihR4⟩ := ih _ (2 * b + 1) (s + 1) hlR huR
      -- facts each side's outputs inherit, relative to the root (b, s)
      have extL : ∀ c ∈ divideNAux f ((codes.take p).map (updCodeN false)),
          s + 1 ≤ c.size ∧ c.bits >>> (c.size - (s + 1)) = 2 * b ∧
            c.bits < (2 * b + 1) * 2 ^ (c.size - (s + 1)) := ihL2
      have extR : ∀ c ∈ divideNAux f ((codes.drop p).map (updCodeN true)),
          s + 1 ≤ c.size ∧ c.bits >>> (c.size - (s + 1)) = 2 * b + 1 ∧
            c.bits < (2 * b + 2) * 2 ^ (c.size - (s + 1)) := ihR2
      have toRoot : ∀ (c : Code) (bb : ℕ), s + 1 ≤ c.size →
          c.bits >>> (c.size - (s + 1)) = 2 * b + bb → bb ≤ 1 →
          c.bits < (2 * b + 1 + bb) * 2 ^ (c.size - (s + 1)) →
          s ≤ c.size ∧ c.bits >>> (c.size - s) = b ∧
            c.bits < (b + 1) * 2 ^ (c.size - s) := by
        intro c bb h1 h2 hbb h3
        refine ⟨by omega, ?_, ?_⟩
        · have hsplit : c.size - s = (c.size - (s + 1)) + 1 := by omega
          rw [hsplit, Nat.shiftRight_add, h2]
          simp [Nat.shiftRight_succ, Nat.shiftRight_zero]
          omega
        · have hsplit : c.size - s = (c.size - (s + 1)) + 1 := by omega
          rw [hsplit, pow_succ]
          calc c.bits < (2 * b + 1 + bb) * 2 ^ (c.size - (s + 1)) := h3
            _ ≤ (b + 1) * 2 * 2 ^ (c.size - (s + 1)) := by nlinarith [pow_pos (by omega : 0 < 2) (c.size - (s + 1))]
            _ = (b + 1) * (2 ^ (c.size - (s + 1)) * 2) := by ring
      rw [hd]
      refine ⟨?_, ?_, ?_, ?_⟩
      · -- (char, prob) column preserved
        rw [List.map_append, ihL1, ihR1, List.map_map, List.map_map]
        have hupd : ∀ one : Bool,
            ((fun c => (c.char, c.prob)) ∘ updCodeN one) =
              fun c : Code => (c.char, c.prob) := by
          intro one; funext c; simp [updCodeN, Function.comp]
        rw [hupd, hupd, ← List.map_append, List.take_append_drop]
      · intro c hc
        rcases List.mem_append.mp hc with hcl | hcr
        · obtain ⟨h1, h2, h3⟩ := extL c hcl
          exact toRoot c 0 h1 (by simpa using h2) (by omega) (by simpa using h3)
        · obtain ⟨h1, h2, h3⟩ := extR c hcr
          exact toRoot c 1 h1 h2 (by omega) (by simpa using h3)
      · intro _ c hc
        rcases List.mem_append.mp hc with hcl | hcr
        · have := (extL c hcl).1; omega
        · have := (extR c hcr).1; omega
      · rw [List.pairwise_append]
        refine ⟨ihL4, ihR4, ?_⟩
        intro cL hcL cR hcR
        obtain ⟨hL1, hL2, _⟩ := extL cL hcL
        obtain ⟨hR1, hR2, _⟩ := extR cR hcR
        constructor
        · rintro ⟨hle, heq⟩
          have hsplit : cR.size - (s + 1) = (cR.size - cL.size) + (cL.size - (s + 1)) := by
            omega
          rw [hsplit, Nat.shiftRight_add, heq, hL2] at hR2
          omega
        · rintro ⟨hle, heq⟩
          have hsplit : cL.size - (s + 1) = (cL.size - cR.size) + (cR.size - (s + 1)) := by
            omega
          rw [hsplit, Nat.shiftRight_add, heq, hR2] at hL2
          omega

/-! ## Go's `uint32` bits agree with the unbounded bits modulo `2^32` -/

/-- ORing a set bit 0 into an even number is addition. -/
theorem lor_one_of_even (a : ℕ) (h : a % 2 = 0) : a ||| 1 = a + 1 := by
  apply Nat.eq_of_testBit_eq
  intro i
  cases i with
  | zero =>
    simp only [Nat.testBit_lor, Nat.testBit_zero]
    have h1 : (a + 1) % 2 = 1 := by omega
    simp [h, h1]
  | succ j =>
    rw [Nat.testBit_lor, Nat.testBit_add_one, Nat.testBit_add_one, Nat.testBit_add_one]
    have h1 : (a + 1) / 2 = a / 2 := by omega
    have h2 : (1 : ℕ) / 2 = 0 := by norm_num
    rw [h1, h2]
    simp [Nat.zero_testBit]

/-- The simulation relation: a Go code equals an unbounded code up to
reduction of the bit pattern modulo `2^32`. -/
def CodeRel (c d : Code) : Prop :=
  c.char = d.char ∧ c.prob = d.prob ∧ c.size = d.size ∧ c.bits = d.bits % 2 ^ 32

/-- One divide-update preserves the simulation. -/
theorem codeRel_upd (one : Bool) (c d : Code) (h : CodeRel c d) :
    CodeRel (updCode one c) (updCodeN one d) := by
  obtain ⟨h1, h2, h3, h4⟩ := h
  refine ⟨h1, h2, by simp [updCode, updCodeN, h3], ?_⟩
  have hshift : (c.bits <<< 1) % 2 ^ 32 = (2 * d.bits) % 2 ^ 32 := by
    rw [Nat.shiftLeft_eq, h4]
    conv_rhs => rw [Nat.mul_comm]
    rw [Nat.mod_mul_mod]
  cases one with
  | false => simpa [updCode, updCodeN] using hshift
  | true =>
    simp only [updCode, updCodeN, if_true]
    have heven : (2 * d.bits) % 2 ^ 32 % 2 = 0 := by omega
    rw [hshift, lor_one_of_even _ heven]
    omega

/-- The probability columns of related lists agree. -/
theorem codeRel_map_prob :
    ∀ {l l' : List Code}, List.Forall₂ CodeRel l l' →
      l.map Code.prob = l'.map Code.prob := by
  intro l l' h
  induction h with
  | nil => rfl
  | cons hcd _ ih => simp [ih, hcd.2.1]

/-- `divideAux` simulates `divideNAux` step for step, modulo `2^32`. -/
theorem divide_mod_rel :
    ∀ (fuel : ℕ) {l l' : List Code}, List.Forall₂ CodeRel l l' →
      List.Forall₂ CodeRel (divideAux fuel l) (divideNAux fuel l') := by
  intro fuel
  induction fuel with
  | zero => intro l l' h; exact h
  | succ f ih =>
    intro l l' h
    have hlen := h.length_eq
    by_cases hlt : l.length < 2
    · simp only [divideAux, divideNAux, if_pos hlt, if_pos (hlen ▸ hlt)]
      exact h
    · have hlt' : ¬ l'.length < 2 := hlen ▸ hlt
      simp only [divideAux, divideNAux, if_neg hlt, if_neg hlt']
      rw [codeRel_map_prob h]
      apply List.rel_append
      · exact ih (List.rel_map (fun c d hcd => codeRel_upd false c d hcd)
          (List.forall₂_take _ h))
      · exact ih (List.rel_map (fun c d hcd => codeRel_upd true c d hcd)
          (List.forall₂_drop _ h))

/-- Related codes with an in-range unbounded pattern are equal. -/
theorem codeRel_eq_of_lt (c d : Code) (h : CodeRel c d) (hd : d.bits < 2 ^ 32) :
    c = d := by
  obtain ⟨h1, h2, h3, h4⟩ := h
  cases c; cases d
  simp_all [Nat.mod_eq_of_lt hd]

/-- `BuildTable` and its unbounded counterpart are related pointwise. -/
theorem buildTable_rel (freq : List (Char × Fr)) :
    List.Forall₂ CodeRel (BuildTable freq) (BuildTableN freq) := by
  unfold BuildTable BuildTableN
  apply divide_mod_rel
  rw [List.forall₂_same]
  intro c hc
  have hc' := (sortCodes_perm _).mem_iff.mp hc
  obtain ⟨rp, _, rfl⟩ := List.mem_map.mp hc'
  exact ⟨rfl, rfl, rfl, rfl⟩

/-- Sizes transfer across the simulation. -/
theorem forall₂_codeRel_size_le :
    ∀ {l l' : List Code}, List.Forall₂ CodeRel l l' →
      (∀ c ∈ l, c.size ≤ 32) → ∀ d ∈ l', d.size ≤ 32 := by
  intro l l' h
  induction h with
  | nil => intro _ d hd; cases hd
  | cons hcd _ ih =>
    intro h32 d hd
    rcases List.mem_cons.mp hd with rfl | hd'
    · exact hcd.2.2.1 ▸ h32 _ (List.mem_cons_self ..)
    · exact ih (fun c hc => h32 c (List.mem_cons_of_mem _ hc)) d hd'

/-- Related lists whose unbounded patterns are in range are equal. -/
theorem forall₂_codeRel_eq :
    ∀ {l l' : List Code}, List.Forall₂ CodeRel l l' →
      (∀ d ∈ l', d.bits < 2 ^ 32) → l = l' := by
  intro l l' h
  induction h with
  | nil => intro _; rfl
  | cons hcd _ ih =>
    intro hlt
    rw [codeRel_eq_of_lt _ _ hcd (hlt _ (List.mem_cons_self ..)),
      ih fun d hd => hlt d (List.mem_cons_of_mem _ hd)]

/-- The structural facts `divideNAux` guarantees for a built table: every
code is well-formed (`bits < 2^size`), after a real split every code is
nonempty, and the codes are pairwise non-prefix. -/
theorem buildTableN_spec (freq : List (Char × Fr)) :
    (∀ c ∈ BuildTableN freq, c.bits < 2 ^ c.size) ∧
    (2 ≤ freq.length → ∀ c ∈ BuildTableN freq, 1 ≤ c.size) ∧
    ((BuildTableN freq).Pairwise fun c d => ¬ pref c d ∧ ¬ pref d c) := by
  have huni : ∀ c ∈ sortCodes (freq.map fun rp => ⟨rp.1, rp.2, 0, 0⟩),
      c.bits = 0 ∧ c.size = 0 := by
    intro c hc
    obtain ⟨rp, _, rfl⟩ := List.mem_map.mp ((sortCodes_perm _).mem_iff.mp hc)
    exact ⟨rfl, rfl⟩
  obtain ⟨_, h2, h3, h4⟩ := divideN_spec
    (sortCodes (freq.map fun rp => ⟨rp.1, rp.2, 0, 0⟩)).length
    (sortCodes (freq.map fun rp => ⟨rp.1, rp.2, 0, 0⟩)) 0 0 (le_refl _) huni
  have hlen : (sortCodes (freq.map fun rp => (⟨rp.1, rp.2, 0, 0⟩ : Code))).length =
      freq.length := by
    rw [(sortCodes_perm _).length_eq, List.length_map]
  refine ⟨?_, ?_, h4⟩
  · intro c hc
    have := (h2 c hc).2.2
    simpa using this
  · intro hf c hc
    exact h3 (by omega) c hc

/-- Whenever no code length exceeds 32 bits, the Go table *is* the
unbounded-path table: no `uint32` wrap ever fired. -/
theorem buildTable_eq_N (freq : List (Char × Fr))
    (h32 : ∀ c ∈ BuildTable freq, c.size ≤ 32) :
    BuildTable freq = BuildTableN freq := by
  have hrel := buildTable_rel freq
  apply forall₂_codeRel_eq hrel
  intro d hd
  have hwf := (buildTableN_spec freq).1 d hd
  have hsz := forall₂_codeRel_size_le hrel h32 d hd
  calc d.bits < 2 ^ d.size := hwf
    _ ≤ 2 ^ 32 := Nat.pow_le_pow_right (by omega) hsz

/-- Two codes that are mutually non-prefixes differ on their common
truncation. -/
theorem nonpref_trunc (c d : Code) (h1 : ¬ pref c d) (h2 : ¬ pref d c) :
    c.bits >>> (c.size - min c.size d.size) ≠
      d.bits >>> (d.size - min c.size d.size) := by
  intro heq
  rcases Nat.le_total c.size d.size with hle | hle
  · rw [Nat.min_eq_left hle, Nat.sub_self, Nat.shiftRight_zero] at heq
    exact h1 ⟨hle, heq.symm⟩
  · rw [Nat.min_eq_right hle, Nat.sub_self, Nat.shiftRight_zero] at heq
    exact h2 ⟨hle, heq⟩

/-- C2, amended: for every probability map whose built table contains only
codes of length at most 32 (so that no code overflows the `uint32` `Bits`
field — the counterexample shows the invariant genuinely fails beyond that),
the table is prefix-free: any two entries at distinct positions differ once
truncated to the shorter of the two lengths. -/
theorem c2_prefixFree_amended (freq : List (Char × Fr))
    (h32 : ∀ c ∈ BuildTable freq, c.size ≤ 32) :
    ∀ (i j : ℕ) (ci cj : Code), i ≠ j →
      (BuildTable freq)[i]? = some ci → (BuildTable freq)[j]? = some cj →
      ci.bits >>> (ci.size - min ci.size cj.size) ≠
        cj.bits >>> (cj.size - min ci.size cj.size) := by
  intro i j ci cj hne hi hj
  have hpw : (BuildTable freq).Pairwise fun c d => ¬ pref c d ∧ ¬ pref d c := by
    rw [buildTable_eq_N freq h32]
    exact (buildTableN_spec freq).2.2
  rw [List.pairwise_iff_getElem] at hpw
  obtain ⟨hi', rfl⟩ := List.getElem?_eq_some_iff.mp hi
  obtain ⟨hj', rfl⟩ := List.getElem?_eq_some_iff.mp hj
  rcases Nat.lt_or_ge i j with hij | hge
  · obtain ⟨h1, h2⟩ := hpw i j hi' hj' hij
    exact nonpref_trunc _ _ h1 h2
  · have hji : j < i := by omega
    obtain ⟨h1, h2⟩ := hpw j i hj' hi' hji
    exact nonpref_trunc _ _ h2 h1

/-! ## The packed bit vector, bit by bit (C9, C10, C1)

`bitAt v k` is bit `k` of the vector in wire order: word `k/32`, bit
`31 - k%32` of that word (MSB first).  `natBits L x` is the `L`-bit MSB-first
spelling of `x`; `vecBits` spells out a whole vector. -/

/-- Bit `k` (MSB-first, across 32-bit words) of a word vector. -/
def bitAt (v : List ℕ) (k : ℕ) : Bool := (v.getD (k / 32) 0).testBit (31 - k % 32)

/-- The `L`-bit MSB-first bit list of `x`. -/
def natBits (L x : ℕ) : List Bool := (List.range L).map fun j => x.testBit (L - 1 - j)

/-- All bits of a word vector, MSB-first, word 0 first. -/
def vecBits : List ℕ → List Bool
  | [] => []
  | w :: ws => natBits 32 w ++ vecBits ws

theorem length_natBits (L x : ℕ) : (natBits L x).length = L := by
  simp [natBits]

theorem length_vecBits : ∀ v : List ℕ, (vecBits v).length = 32 * v.length := by
  intro v
  induction v with
  | nil => rfl
  | cons w ws ih =>
    simp only [vecBits, List.length_append, length_natBits, ih, List.length_cons]
    ring

theorem getD_append_left {α : Type} {l l' : List α} {i : ℕ} {d : α} (h : i < l.length) :
    (l ++ l').getD i d = l.getD i d := by
  rw [List.getD_eq_getElem?_getD, List.getD_eq_getElem?_getD, List.getElem?_append_left h]

theorem getD_append_right {α : Type} {l l' : List α} {i : ℕ} {d : α} (h : l.length ≤ i) :
    (l ++ l').getD i d = l'.getD (i - l.length) d := by
  rw [List.getD_eq_getElem?_getD, List.getD_eq_getElem?_getD, List.getElem?_append_right h]

theorem getD_of_length_le {α : Type} {l : List α} {i : ℕ} {d : α} (h : l.length ≤ i) :
    l.getD i d = d := by
  rw [List.getD_eq_getElem?_getD, List.getElem?_eq_none h]
  rfl

/-- `orLast` keeps the length. -/
theorem orLast_length (x : ℕ) : ∀ v : List ℕ, (orLast x v).length = v.length
  | [] => rfl
  | [_] => rfl
  | _ :: w :: rest => by
    simp only [orLast, List.length_cons, orLast_length x (w :: rest)]

/-- `orLast` ORs `x` into the last word and nothing else. -/
theorem orLast_getD (x : ℕ) :
    ∀ (v : List ℕ) (i : ℕ), v ≠ [] →
      (orLast x v).getD i 0 =
        if i = v.length - 1 then v.getD i 0 ||| x else v.getD i 0
  | [], _, h => absurd rfl h
  | [w], i, _ => by
    cases i with
    | zero => simp [orLast]
    | succ j => simp [orLast]
  | w :: w' :: rest, i, _ => by
    cases i with
    | zero =>
      have : ¬ (0 = (w :: w' :: rest).length - 1) := by simp
      simp [orLast, this]
    | succ j =>
      have hrec := orLast_getD x (w' :: rest) j (by simp)
      simp only [orLast, List.getD_cons_succ, hrec, List.length_cons]
      by_cases hj : j = rest.length
      · rw [if_pos (by omega), if_pos (by omega)]
      · rw [if_neg (by omega), if_neg (by omega)]

/-- The heart of the encoder proofs: what one packing step does to every bit
position `k < size + c.size` — positions below `size` are untouched and the
`c.size` new positions receive the code's bits MSB-first.  Requires a
well-formed code no longer than 32 bits and the encoder invariants. -/
theorem encStep_bitAt (c : Code) (v : List ℕ) (size : ℕ)
    (h32 : c.size ≤ 32) (hwf : c.bits < 2 ^ c.size)
    (hlen : v.length = size / 32 + 1)
    (hpad : ∀ k, size ≤ k → bitAt v k = false) :
    ∀ k, k < size + c.size →
      bitAt (encStep c v size) k =
        if k < size then bitAt v k else c.bits.testBit (c.size - 1 - (k - size)) := by
  intro k hk
  have hvne : v ≠ [] := by
    intro h; rw [h] at hlen; simp at hlen
  simp only [encStep]
  by_cases hfit : size % 32 + c.size < 32
  · rw [if_pos hfit]
    unfold bitAt
    rw [orLast_getD _ _ _ hvne]
    by_cases hi : k / 32 = v.length - 1
    · rw [if_pos hi, Nat.testBit_lor]
      by_cases hks : k < size
      · rw [if_pos hks]
        have hyb : ((c.bits <<< (32 - size % 32 - c.size)) % 2 ^ 32).testBit
            (31 - k % 32) = false := by
          rw [Nat.testBit_mod_two_pow, Nat.testBit_shiftLeft]
          by_cases harg : 31 - k % 32 ≥ 32 - size % 32 - c.size
          · have hbit : c.bits.testBit (31 - k % 32 - (32 - size % 32 - c.size)) = false := by
              apply Nat.testBit_lt_two_pow
              calc c.bits < 2 ^ c.size := hwf
                _ ≤ 2 ^ (31 - k % 32 - (32 - size % 32 - c.size)) :=
                  Nat.pow_le_pow_right (by omega) (by omega)
            simp [hbit]
          · simp [harg]
        rw [hyb]
        simp only [Bool.or_false]
      · rw [if_neg hks]
        have hold : (v.getD (k / 32) 0).testBit (31 - k % 32) = false :=
          hpad k (by omega)
        rw [hold]
        simp only [Bool.false_or]
        rw [Nat.testBit_mod_two_pow, Nat.testBit_shiftLeft]
        have h1 : 31 - k % 32 < 32 := by omega
        have h2 : 31 - k % 32 ≥ 32 - size % 32 - c.size := by omega
        have h3 : 31 - k % 32 - (32 - size % 32 - c.size) = c.size - 1 - (k - size) := by
          omega
        simp [h1, h2, h3]
    · rw [if_neg hi]
      have hks : k < size := by omega
      rw [if_pos hks]
  · rw [if_neg hfit]
    have hm32 : c.size - (32 - size % 32) ≤ 32 := by omega
    rw [if_pos hm32]
    unfold bitAt
    by_cases hi : k / 32 < v.length
    · rw [getD_append_left (by rw [orLast_length]; exact hi)]
      rw [orLast_getD _ _ _ hvne]
      by_cases hi2 : k / 32 = v.length - 1
      · rw [if_pos hi2, Nat.testBit_lor]
        by_cases hks : k < size
        · rw [if_pos hks]
          have hyb : (c.bits >>> (c.size - (32 - size % 32))).testBit (31 - k % 32)
              = false := by
            rw [Nat.testBit_shiftRight]
            apply Nat.testBit_lt_two_pow
            calc c.bits < 2 ^ c.size := hwf
              _ ≤ 2 ^ (c.size - (32 - size % 32) + (31 - k % 32)) :=
                Nat.pow_le_pow_right (by omega) (by omega)
          rw [hyb]
          simp only [Bool.or_false]
        · rw [if_neg hks]
          have hold : (v.getD (k / 32) 0).testBit (31 - k % 32) = false :=
            hpad k (by omega)
          rw [hold]
          simp only [Bool.false_or]
          rw [Nat.testBit_shiftRight]
          congr 1
          omega
      · rw [if_neg hi2]
        have hks : k < size := by omega
        rw [if_pos hks]
    · rw [getD_append_right (by rw [orLast_length]; omega)]
      rw [orLast_length]
      have hidx : k / 32 - v.length = 0 := by omega
      rw [hidx]
      have hks : ¬ k < size := by omega
      rw [if_neg hks]
      simp only [List.getD_cons_zero]
      rw [Nat.testBit_mod_two_pow, Nat.testBit_shiftLeft]
      have h1 : 31 - k % 32 < 32 := by omega
      have h2 : 31 - k % 32 ≥ 32 - (c.size - (32 - size % 32)) := by omega
      have h3 : 31 - k % 32 - (32 - (c.size - (32 - size % 32))) =
          c.size - 1 - (k - size) := by omega
      simp [h1, h2, h3]

/-- One packing step keeps the encoder invariants: the vector stays nonempty,
its last word starts at or before bit offset `size`, and every bit position at
or beyond the new total stays zero.  (No assumption on the code at all — this
holds even for degenerate codes longer than 32 bits.) -/
theorem encStep_pad (c : Code) (v : List ℕ) (size : ℕ)
    (hvne : v ≠ [])
    (hpos : 32 * (v.length - 1) ≤ size)
    (hpad : ∀ k, size ≤ k → bitAt v k = false) :
    encStep c v size ≠ [] ∧
    32 * ((encStep c v size).length - 1) ≤ size + c.size ∧
    (∀ k, size + c.size ≤ k → bitAt (encStep c v size) k = false) := by
  have hvpos : 1 ≤ v.length := List.length_pos.mpr hvne
  simp only [encStep]
  by_cases hfit : size % 32 + c.size < 32
  · rw [if_pos hfit]
    refine ⟨fun h => hvne (List.length_eq_zero.mp (by rw [← orLast_length
      ((c.bits <<< (32 - size % 32 - c.size)) % 2 ^ 32) v, h]; rfl)), ?_, ?_⟩
    · rw [orLast_length]; omega
    · intro k hk
      unfold bitAt
      rw [orLast_getD _ _ _ hvne]
      by_cases hi : k / 32 = v.length - 1
      · rw [if_pos hi, Nat.testBit_lor]
        have hold : (v.getD (k / 32) 0).testBit (31 - k % 32) = false :=
          hpad k (by omega)
        have hyb : ((c.bits <<< (32 - size % 32 - c.size)) % 2 ^ 32).testBit
            (31 - k % 32) = false := by
          rw [Nat.testBit_mod_two_pow, Nat.testBit_shiftLeft]
          have harg : ¬ 31 - k % 32 ≥ 32 - size % 32 - c.size := by omega
          simp [harg]
        rw [hold, hyb]
        rfl
      · rw [if_neg hi]
        by_cases hlt2 : k / 32 < v.length
        · exact hpad k (by omega)
        · have hout : v.length ≤ k / 32 := by omega
          have : v.getD (k / 32) 0 = 0 := by
            rw [List.getD_eq_getElem?_getD, List.getElem?_eq_none hout]
            rfl
          rw [this]
          simp
  · rw [if_neg hfit]
    refine ⟨by simp, ?_, ?_⟩
    · simp only [List.length_append, orLast_length, List.length_singleton]
      omega
    · intro k hk
      unfold bitAt
      by_cases hi : k / 32 < v.length
      · rw [getD_append_left (by rw [orLast_length]; exact hi)]
        rw [orLast_getD _ _ _ hvne]
        by_cases hi2 : k / 32 = v.length - 1
        · exfalso
          omega
        · rw [if_neg hi2]
          exact hpad k (by omega)
      · rw [getD_append_right (by rw [orLast_length]; omega), orLast_length]
        by_cases hi3 : k / 32 = v.length
        · rw [hi3, Nat.sub_self]
          simp only [List.getD_cons_zero]
          by_cases hm32 : c.size - (32 - size % 32) ≤ 32
          · rw [if_pos hm32, Nat.testBit_mod_two_pow, Nat.testBit_shiftLeft]
            have harg : ¬ 31 - k % 32 ≥ 32 - (c.size - (32 - size % 32)) := by omega
            simp [harg]
          · rw [if_neg hm32]
            simp
        · have : k / 32 - v.length = (k / 32 - v.length - 1) + 1 := by omega
          rw [this]
          simp

/-- The encoder loop maintains the padding invariants through a whole run. -/
theorem encodeLoop_pad (t : Table) :
    ∀ (s : List Char) (v : List ℕ) (size : ℕ) (out : List ℕ) (sz : ℕ),
      encodeLoop t s v size = .ok (out, sz) →
      v ≠ [] → 32 * (v.length - 1) ≤ size →
      (∀ k, size ≤ k → bitAt v k = false) →
      size ≤ sz ∧ out ≠ [] ∧ 32 * (out.length - 1) ≤ sz ∧
        (∀ k, sz ≤ k → bitAt out k = false) := by
  intro s
  induction s with
  | nil =>
    intro v size out sz henc hne hpos hpad
    simp only [encodeLoop] at henc
    obtain ⟨rfl, rfl⟩ : v = out ∧ size = sz := by
      cases henc; exact ⟨rfl, rfl⟩
    exact ⟨le_refl _, hne, hpos, hpad⟩
  | cons r rest ih =>
    intro v size out sz henc hne hpos hpad
    simp only [encodeLoop] at henc
    cases hf : t.find? fun c => c.char = r with
    | none => rw [hf] at henc; cases henc
    | some c =>
      rw [hf] at henc
      obtain ⟨h1, h2, h3⟩ := encStep_pad c v size hne hpos hpad
      obtain ⟨hle, hrest⟩ := ih (encStep c v size) (size + c.size) out sz henc h1 h2 h3
      exact ⟨by omega, hrest⟩

/-- C9: every bit of a successful `Encode` output at or beyond `total_bits`
is zero — the unused low-order bits of the partially filled last word and any
fully unused trailing word are zero-padded.  (No assumptions on the table.) -/
theorem c9_zero_padding (t : Table) (s : List Char) (v : List ℕ) (sz : ℕ)
    (henc : t.Encode s = .ok (v, sz)) :
    ∀ k, sz ≤ k → bitAt v k = false := by
  unfold Table.Encode at henc
  by_cases h0 : t.length = 0
  · rw [if_pos h0] at henc; cases henc
  · rw [if_neg h0] at henc
    have hpad0 : ∀ k, 0 ≤ k → bitAt [0] k = false := by
      intro k _
      unfold bitAt
      cases h : k / 32 with
      | zero => simp [h]
      | succ j => simp [h]
    exact (encodeLoop_pad t s [0] 0 v sz henc (by simp) (by simp) hpad0).2.2.2

/-- One packing step on a code of length ≤ 32 advances the exact word count
`size/32 + 1`. -/
theorem encStep_len (c : Code) (v : List ℕ) (size : ℕ)
    (h32 : c.size ≤ 32) (hlen : v.length = size / 32 + 1) :
    (encStep c v size).length = (size + c.size) / 32 + 1 := by
  simp only [encStep]
  by_cases hfit : size % 32 + c.size < 32
  · rw [if_pos hfit, orLast_length]
    omega
  · rw [if_neg hfit]
    simp only [List.length_append, orLast_length, List.length_singleton]
    omega

/-- The encoder loop keeps the exact word count when all codes fit in 32
bits. -/
theorem encodeLoop_len (t : Table) (h32 : ∀ c ∈ t, c.size ≤ 32) :
    ∀ (s : List Char) (v : List ℕ) (size : ℕ) (out : List ℕ) (sz : ℕ),
      encodeLoop t s v size = .ok (out, sz) →
      v.length = size / 32 + 1 → out.length = sz / 32 + 1 := by
  intro s
  induction s with
  | nil =>
    intro v size out sz henc hlen
    simp only [encodeLoop] at henc
    obtain ⟨rfl, rfl⟩ : v = out ∧ size = sz := by
      cases henc; exact ⟨rfl, rfl⟩
    exact hlen
  | cons r rest ih =>
    intro v size out sz henc hlen
    simp only [encodeLoop] at henc
    cases hf : t.find? fun c => c.char = r with
    | none => rw [hf] at henc; cases henc
    | some c =>
      rw [hf] at henc
      have hc32 : c.size ≤ 32 := h32 c (List.mem_of_find?_eq_some hf)
      exact ih (encStep c v size) (size + c.size) out sz henc
        (encStep_len c v size hc32 hlen)

/-- C10, amended: for every table whose codes are all at most 32 bits long
(the counterexample shows longer codes genuinely break this), a successful
`Encode` returns exactly `total_bits/32 + 1` words — one more than
`total_bits/32` — so the output paired with its own size always passes
`Decode`'s storage check `len(bitVec) > size/32`. -/
theorem c10_length_amended (t : Table) (s : List Char) (v : List ℕ) (sz : ℕ)
    (h32 : ∀ c ∈ t, c.size ≤ 32) (henc : t.Encode s = .ok (v, sz)) :
    v.length = sz / 32 + 1 ∧ sz / 32 < v.length := by
  unfold Table.Encode at henc
  by_cases h0 : t.length = 0
  · rw [if_pos h0] at henc; cases henc
  · rw [if_neg h0] at henc
    have := encodeLoop_len t h32 s [0] 0 v sz henc (by simp)
    exact ⟨this, by omega⟩

/-! ## Bit-list views used to relate encoder and decoder -/

/-- The MSB-first bit list of one code. -/
def codeBits (c : Code) : List Bool := natBits c.size c.bits

/-- The concatenated bit stream of a sequence of codes. -/
def codeStream : List Code → List Bool
  | [] => []
  | c :: cs => codeBits c ++ codeStream cs

theorem natBits_getElem (L x j : ℕ) {h : j < (natBits L x).length} :
    (natBits L x)[j] = x.testBit (L - 1 - j) := by
  simp [natBits]

theorem natBits_succ (L x : ℕ) : natBits (L + 1) x = x.testBit L :: natBits L x := by
  apply List.ext_getElem
  · simp [natBits]
  · intro j h1 h2
    cases j with
    | zero =>
      rw [natBits_getElem]
      simp only [List.getElem_cons_zero]
      congr 1
    | succ j =>
      simp only [List.getElem_cons_succ]
      rw [natBits_getElem, natBits_getElem]
      congr 1
      omega

theorem natBits_getD (L x j : ℕ) :
    (natBits L x).getD j false = if j < L then x.testBit (L - 1 - j) else false := by
  by_cases h : j < L
  · rw [if_pos h, List.getD_eq_getElem?_getD,
      List.getElem?_eq_getElem (by simpa [natBits] using h)]
    simp [natBits]
  · rw [if_neg h, getD_of_length_le (by simpa [natBits] using Nat.le_of_not_lt h)]

theorem vecBits_getD : ∀ (v : List ℕ) (k : ℕ), (vecBits v).getD k false = bitAt v k := by
  intro v
  induction v with
  | nil =>
    intro k
    unfold bitAt
    cases h : k / 32 <;> simp [vecBits, h]
  | cons w ws ih =>
    intro k
    by_cases hk : k < 32
    · rw [vecBits, getD_append_left (by simp [length_natBits]; omega), natBits_getD]
      unfold bitAt
      have h1 : k / 32 = 0 := by omega
      have h2 : k % 32 = k := by omega
      rw [if_pos hk, h1, h2]
      simp
    · rw [vecBits, getD_append_right (by simp [length_natBits]; omega), length_natBits,
        ih (k - 32)]
      unfold bitAt
      have h1 : (k - 32) / 32 = k / 32 - 1 := by omega
      have h2 : (k - 32) % 32 = k % 32 := by omega
      have h3 : k / 32 = (k / 32 - 1) + 1 := by omega
      rw [h1, h2, h3]
      simp

/-- Extensionality through `getD`. -/
theorem list_ext_getD {α : Type} {d : α} {l1 l2 : List α}
    (hlen : l1.length = l2.length) (h : ∀ k, l1.getD k d = l2.getD k d) :
    l1 = l2 := by
  apply List.ext_getElem hlen
  intro n h1 h2
  have hk := h n
  rwa [List.getD_eq_getElem?_getD, List.getD_eq_getElem?_getD,
    List.getElem?_eq_getElem h1, List.getElem?_eq_getElem h2] at hk

/-- `getD` through `take`, below the cut. -/
theorem take_getD {α : Type} {d : α} (l : List α) (N k : ℕ) (h : k < N) :
    (l.take N).getD k d = l.getD k d := by
  rw [List.getD_eq_getElem?_getD, List.getD_eq_getElem?_getD,
    List.getElem?_take_of_lt h]

/-- What one packing step does to the bit stream: the first `size` bits are
unchanged and the code's `c.size` bits are appended, MSB first. -/
theorem encStep_stream (c : Code) (v : List ℕ) (size : ℕ)
    (h32 : c.size ≤ 32) (hwf : c.bits < 2 ^ c.size)
    (hlen : v.length = size / 32 + 1)
    (hpad : ∀ k, size ≤ k → bitAt v k = false) :
    (vecBits (encStep c v size)).take (size + c.size) =
      (vecBits v).take size ++ codeBits c := by
  have hlen' : (encStep c v size).length = (size + c.size) / 32 + 1 :=
    encStep_len c v size h32 hlen
  have htl : ((vecBits v).take size).length = size := by
    rw [List.length_take, length_vecBits]
    omega
  apply list_ext_getD
  · rw [List.length_take, length_vecBits, hlen', List.length_append, htl,
      codeBits, length_natBits]
    omega
  · intro k
    by_cases hk : k < size + c.size
    · rw [take_getD _ _ _ hk, vecBits_getD,
        encStep_bitAt c v size h32 hwf hlen hpad k hk]
      by_cases hks : k < size
      · rw [if_pos hks, getD_append_left (by rw [htl]; exact hks),
          take_getD _ _ _ hks, vecBits_getD]
      · rw [if_neg hks, getD_append_right (by rw [htl]; omega), htl, codeBits,
          natBits_getD]
        rw [if_pos (by omega)]
    · rw [getD_of_length_le (le_trans (by rw [List.length_take]; omega)
        (by omega : size + c.size ≤ k))]
      rw [getD_of_length_le (by rw [List.length_append, htl, codeBits, length_natBits]; omega)]

/-- `orLast` keeps words below `2^32` when the ORed value is. -/
theorem orLast_words (x : ℕ) (hx : x < 2 ^ 32) :
    ∀ v : List ℕ, (∀ w ∈ v, w < 2 ^ 32) → ∀ u ∈ orLast x v, u < 2 ^ 32
  | [], _, u, hu => by cases hu
  | [w], hv, u, hu => by
    simp only [orLast, List.mem_singleton] at hu
    subst hu
    exact Nat.or_lt_two_pow (hv w (by simp)) hx
  | w :: w' :: rest, hv, u, hu => by
    simp only [orLast, List.mem_cons] at hu
    rcases hu with rfl | hu
    · exact hv u (by simp)
    · exact orLast_words x hx (w' :: rest) (fun a ha => hv a (List.mem_cons_of_mem _ ha))
        u hu

/-- One packing step keeps all words below `2^32`. -/
theorem encStep_words (c : Code) (v : List ℕ) (size : ℕ)
    (hb : c.bits < 2 ^ 32) (hv : ∀ w ∈ v, w < 2 ^ 32) :
    ∀ u ∈ encStep c v size, u < 2 ^ 32 := by
  intro u hu
  simp only [encStep] at hu
  by_cases hfit : size % 32 + c.size < 32
  · rw [if_pos hfit] at hu
    exact orLast_words _ (Nat.mod_lt _ (by norm_num)) v hv u hu
  · rw [if_neg hfit] at hu
    rcases List.mem_append.mp hu with hu | hu
    · refine orLast_words _ ?_ v hv u hu
      calc c.bits >>> (c.size - (32 - size % 32)) ≤ c.bits := by
            rw [Nat.shiftRight_eq_div_pow]; exact Nat.div_le_self ..
        _ < 2 ^ 32 := hb
    · simp only [List.mem_singleton] at hu
      subst hu
      by_cases hm : c.size - (32 - size % 32) ≤ 32
      · rw [if_pos hm]; exact Nat.mod_lt _ (by norm_num)
      · rw [if_neg hm]; norm_num

/-- The full encoder invariant run: a successful `encodeLoop` from a valid
state yields the per-symbol code list `cs`, the exact total size, the exact
word count, in-range words, and the concatenated bit stream. -/
theorem encodeLoop_stream (t : Table)
    (h32 : ∀ c ∈ t, c.size ≤ 32) (hwf : ∀ c ∈ t, c.bits < 2 ^ c.size) :
    ∀ (s : List Char) (v : List ℕ) (size : ℕ) (out : List ℕ) (sz : ℕ),
      encodeLoop t s v size = .ok (out, sz) →
      v ≠ [] → v.length = size / 32 + 1 → (∀ w ∈ v, w < 2 ^ 32) →
      (∀ k, size ≤ k → bitAt v k = false) →
      ∃ cs : List Code,
        List.Forall₂ (fun (r : Char) (c : Code) =>
          t.find? (fun x => x.char = r) = some c) s cs ∧
        sz = size + (cs.map Code.size).sum ∧
        (vecBits out).take sz = (vecBits v).take size ++ codeStream cs := by
  intro s
  induction s with
  | nil =>
    intro v size out sz henc hne hlen hwords hpad
    simp only [encodeLoop] at henc
    obtain ⟨rfl, rfl⟩ : v = out ∧ size = sz := by
      cases henc; exact ⟨rfl, rfl⟩
    exact ⟨[], List.Forall₂.nil, by simp, by simp [codeStream]⟩
  | cons r rest ih =>
    intro v size out sz henc hne hlen hwords hpad
    simp only [encodeLoop] at henc
    cases hf : t.find? fun c => c.char = r with
    | none => rw [hf] at henc; cases henc
    | some c =>
      rw [hf] at henc
      have hmem : c ∈ t := List.mem_of_find?_eq_some hf
      have hc32 : c.size ≤ 32 := h32 c hmem
      have hcwf : c.bits < 2 ^ c.size := hwf c hmem
      have hpos : 32 * (v.length - 1) ≤ size := by omega
      obtain ⟨h1, h2, h3⟩ := encStep_pad c v size hne hpos hpad
      obtain ⟨cs, hall, hsz, hstream⟩ := ih (encStep c v size) (size + c.size) out sz henc
        h1 (encStep_len c v size hc32 hlen)
        (encStep_words c v size (lt_of_lt_of_le hcwf
          (Nat.pow_le_pow_right (by norm_num) hc32)) hwords) h3
      refine ⟨c :: cs, List.Forall₂.cons hf hall, by simp [hsz]; omega, ?_⟩
      rw [hstream, encStep_stream c v size hc32 hcwf hlen hpad]
      simp [codeStream]

/-! ## The decoder on an abstract bit stream -/

/-- The decoding loop lifted to an abstract bit stream: the same accumulator
logic as `decodeLoop`, with the word/refill mechanics replaced by popping one
`Bool` at a time.  A proof device relating `Table.Decode` to `codeStream`. -/
def sLoop (t : Table) : List Bool → ℕ → ℕ → List Char → List Char × Option DecErr
  | [], _, n, acc => if n ≠ 0 then (acc, some .trailingBits) else (acc, none)
  | b :: rest, bits, n, acc =>
    let bits' := ((bits <<< 1) % 2 ^ 32) ||| (if b then 1 else 0)
    if n + 1 > 32 then ([], some .noMatchingCode)
    else
      match t.find? fun c => decide (c.size = n + 1 ∧ c.bits = bits') with
      | some c => sLoop t rest 0 0 (acc ++ [c.char])
      | none => sLoop t rest bits' (n + 1) acc

/-- The top bit of a 32-bit word, as the Go shift computes it. -/
theorem shiftRight31 (v : ℕ) (h : v < 2 ^ 32) :
    v >>> 31 = if v.testBit 31 then 1 else 0 := by
  rw [Nat.shiftRight_eq_div_pow, Nat.testBit_to_div_mod]
  have h2 : v / 2 ^ 31 = 0 ∨ v / 2 ^ 31 = 1 := by omega
  rcases h2 with h0 | h0 <;> rw [h0] <;> simp

/-- Shifting the current word left drops its top bit and feeds in a zero. -/
theorem natBits_shl (v : ℕ) :
    natBits 32 ((v <<< 1) % 2 ^ 32) = natBits 31 v ++ [false] := by
  apply List.ext_getElem
  · simp [natBits]
  · intro j h1 h2
    rw [natBits_getElem]
    by_cases hj : j < 31
    · rw [List.getElem_append_left (by simpa [natBits] using hj), natBits_getElem,
        Nat.testBit_mod_two_pow, Nat.testBit_shiftLeft]
      have e1 : 32 - 1 - j < 32 := by omega
      have e2 : 32 - 1 - j ≥ 1 := by omega
      have e3 : 32 - 1 - j - 1 = 31 - 1 - j := by omega
      simp [e1, e2, e3]
    · have hj31 : j = 31 := by
        simp only [natBits, List.length_map, List.length_range] at h1
        omega
      subst hj31
      rw [List.getElem_append_right (by simp [natBits])]
      simp only [natBits, List.length_map, List.length_range]
      rw [Nat.testBit_mod_two_pow, Nat.testBit_shiftLeft]
      simp

/-- The word-popping decode loop computes the same thing as the abstract
stream loop, run on the bits remaining in the current (already shifted) word
followed by the unread words. -/
theorem decodeLoop_eq_sLoop (t : Table) :
    ∀ (rem i bits n v : ℕ) (ws : List ℕ) (acc : List Char),
      v < 2 ^ 32 → (∀ w ∈ ws, w < 2 ^ 32) →
      rem ≤ (32 - i % 32) + 32 * ws.length →
      decodeLoop t rem i bits n v ws acc =
        sLoop t (((natBits 32 v).take (32 - i % 32) ++ vecBits ws).take rem)
          bits n acc := by
  intro rem
  induction rem with
  | zero =>
    intro i bits n v ws acc hv hws havail
    simp [decodeLoop, sLoop]
  | succ r ih =>
    intro i bits n v ws acc hv hws havail
    have hm : i % 32 < 32 := Nat.mod_lt _ (by norm_num)
    have hsplit : (natBits 32 v).take (32 - i % 32) =
        v.testBit 31 :: (natBits 31 v).take (31 - i % 32) := by
      have h1 : natBits 32 v = v.testBit 31 :: natBits 31 v := natBits_succ 31 v
      have h2 : 32 - i % 32 = (31 - i % 32) + 1 := by omega
      rw [h1, h2, List.take_succ_cons]
    rw [hsplit]
    simp only [List.cons_append, List.take_succ_cons]
    have hbit : v >>> 31 = if v.testBit 31 then 1 else 0 := shiftRight31 v hv
    simp only [decodeLoop, sLoop, hbit]
    by_cases hn : n + 1 > 32
    · rw [if_pos hn, if_pos hn]
    · rw [if_neg hn, if_neg hn]
      by_cases href : (i + 1) % 32 = 0
      · -- word boundary: refill from the next unread word
        rw [if_pos href, if_pos href]
        have hi31 : i % 32 = 31 := by omega
        have hv2 : ws.headD 0 < 2 ^ 32 := by
          cases ws with
          | nil => norm_num
          | cons w tl => exact hws w (by simp)
        have hws2 : ∀ w ∈ ws.tail, w < 2 ^ 32 := by
          cases ws with
          | nil => intro w hw; cases hw
          | cons w tl => intro u hu; exact hws u (List.mem_cons_of_mem _ hu)
        have havail2 : r ≤ (32 - (i + 1) % 32) + 32 * ws.tail.length := by
          rw [href] at *
          cases ws with
          | nil =>
            rw [hi31] at havail
            simp only [List.length_nil, Nat.mul_zero, Nat.add_zero] at havail
            omega
          | cons w tl =>
            simp only [List.length_cons] at havail ⊢
            simp only [List.tail_cons]
            omega
        have hstream : ((natBits 31 v).take (31 - i % 32) ++ vecBits ws).take r =
            ((natBits 32 (ws.headD 0)).take (32 - (i + 1) % 32) ++
              vecBits ws.tail).take r := by
          rw [hi31, href]
          simp only [Nat.sub_self, List.take_zero, List.nil_append, Nat.sub_zero]
          cases ws with
          | nil =>
            have hr0 : r = 0 := by
              rw [hi31] at havail
              simp only [List.length_nil, Nat.mul_zero, Nat.add_zero] at havail
              omega
            subst hr0
            simp
          | cons w tl =>
            simp only [List.headD_cons, List.tail_cons, vecBits]
            rw [List.take_of_length_le
              (show (natBits 32 w).length ≤ 32 by simp [length_natBits])]
        rw [hstream]
        cases hfind : t.find? fun c =>
            decide (c.size = n + 1 ∧ c.bits = ((bits <<< 1) % 2 ^ 32) |||
              (if v.testBit 31 then 1 else 0)) with
        | some c => exact ih (i + 1) 0 0 _ _ _ hv2 hws2 havail2
        | none => exact ih (i + 1) _ _ _ _ _ hv2 hws2 havail2
      · -- still inside the current word: shift it left
        rw [if_neg href, if_neg href]
        have hip : (i + 1) % 32 = i % 32 + 1 := by omega
        have hv2 : (v <<< 1) % 2 ^ 32 < 2 ^ 32 := Nat.mod_lt _ (by norm_num)
        have havail2 : r ≤ (32 - (i + 1) % 32) + 32 * ws.length := by omega
        have hstream : ((natBits 31 v).take (31 - i % 32) ++ vecBits ws).take r =
            ((natBits 32 ((v <<< 1) % 2 ^ 32)).take (32 - (i + 1) % 32) ++
              vecBits ws).take r := by
          rw [natBits_shl, hip]
          have h3 : 32 - (i % 32 + 1) = 31 - i % 32 := by omega
          rw [h3, List.take_append_of_le_length
            (show 31 - i % 32 ≤ (natBits 31 v).length by simp [length_natBits])]
        rw [hstream]
        cases hfind : t.find? fun c =>
            decide (c.size = n + 1 ∧ c.bits = ((bits <<< 1) % 2 ^ 32) |||
              (if v.testBit 31 then 1 else 0)) with
        | some c => exact ih (i + 1) 0 0 _ _ _ hv2 hws havail2
        | none => exact ih (i + 1) _ _ _ _ _ hv2 hws havail2

/-- Consuming one prefix-free code on the stream machine: starting `j` bits
into code `c` (accumulator holding those `j` bits), the machine consumes the
remaining bits of `c`, matches exactly `c`, emits its symbol and resets. -/
theorem sLoop_code (t : Table)
    (hpw : t.Pairwise fun c d => ¬ pref c d ∧ ¬ pref d c)
    (c : Code) (hmem : c ∈ t) (h32 : c.size ≤ 32) (hwf : c.bits < 2 ^ c.size) :
    ∀ (fuel j : ℕ), j < c.size → c.size - j = fuel →
      ∀ (σ : List Bool) (acc : List Char),
        sLoop t ((natBits c.size c.bits).drop j ++ σ) (c.bits >>> (c.size - j)) j acc =
          sLoop t σ 0 0 (acc ++ [c.char]) := by
  have hsymm : Symmetric fun c d : Code => ¬ pref c d ∧ ¬ pref d c := by
    intro a b hab
    exact ⟨hab.2, hab.1⟩
  have hforall := hpw.forall hsymm
  intro fuel
  induction fuel with
  | zero =>
    intro j hj hf σ acc
    exact absurd hf (by omega)
  | succ f ih =>
    intro j hj hf σ acc
    have hdrop : (natBits c.size c.bits).drop j =
        c.bits.testBit (c.size - 1 - j) :: (natBits c.size c.bits).drop (j + 1) := by
      rw [List.drop_eq_getElem_cons (by simp [length_natBits]; omega)]
      rw [natBits_getElem]
    rw [hdrop, List.cons_append]
    simp only [sLoop]
    rw [if_neg (by omega : ¬ j + 1 > 32)]
    have hstep : ((c.bits >>> (c.size - j)) <<< 1) % 2 ^ 32 |||
        (if c.bits.testBit (c.size - 1 - j) then 1 else 0) =
        c.bits >>> (c.size - (j + 1)) := by
      have hsm : c.bits >>> (c.size - j) < 2 ^ j := by
        rw [Nat.shiftRight_eq_div_pow]
        apply Nat.div_lt_of_lt_mul
        calc c.bits < 2 ^ c.size := hwf
          _ = 2 ^ (c.size - j) * 2 ^ j := by rw [← pow_add]; congr 1; omega
      have h2j : (2 : ℕ) ^ j ≤ 2 ^ 31 := Nat.pow_le_pow_right (by norm_num) (by omega)
      have hshl : ((c.bits >>> (c.size - j)) <<< 1) % 2 ^ 32 =
          2 * (c.bits >>> (c.size - j)) := by
        rw [Nat.shiftLeft_eq, Nat.mod_eq_of_lt (by omega)]
        ring
      have hy : c.bits >>> (c.size - j) = (c.bits >>> (c.size - (j + 1))) / 2 := by
        have hdecomp : c.size - j = (c.size - (j + 1)) + 1 := by omega
        rw [hdecomp, Nat.shiftRight_add, Nat.shiftRight_eq_div_pow, pow_one]
      have hbitval : (if c.bits.testBit (c.size - 1 - j) then 1 else 0) =
          (c.bits >>> (c.size - (j + 1))) % 2 := by
        rw [Nat.testBit_to_div_mod, Nat.shiftRight_eq_div_pow]
        have he : c.size - 1 - j = c.size - (j + 1) := by omega
        rw [he]
        by_cases hb2 : c.bits / 2 ^ (c.size - (j + 1)) % 2 = 1
        · rw [if_pos (by simp [hb2])]
          omega
        · rw [if_neg (by simp [hb2])]
          omega
      rw [hshl, hy, hbitval]
      rcases Nat.mod_two_eq_zero_or_one (c.bits >>> (c.size - (j + 1))) with hp | hp
      · rw [hp, Nat.or_zero]
        omega
      · rw [hp, lor_one_of_even _ (by omega)]
        omega
    rw [hstep]
    by_cases hend : j + 1 = c.size
    · have hz : c.size - (j + 1) = 0 := by omega
      have hpc : decide (c.size = j + 1 ∧ c.bits = c.bits >>> (c.size - (j + 1))) = true := by
        rw [hz]
        simp [← hend]
      cases hfind : t.find? fun d : Code =>
          decide (d.size = j + 1 ∧ d.bits = c.bits >>> (c.size - (j + 1))) with
      | none =>
        exfalso
        have hsome : (t.find? fun d : Code =>
            decide (d.size = j + 1 ∧ d.bits = c.bits >>> (c.size - (j + 1)))).isSome :=
          List.find?_isSome.mpr ⟨c, hmem, hpc⟩
        rw [hfind] at hsome
        simp at hsome
      | some d =>
        have hd := List.find?_some hfind
        have hdmem := List.mem_of_find?_eq_some hfind
        simp only [decide_eq_true_eq] at hd
        obtain ⟨hds, hdb⟩ := hd
        rw [hz, Nat.shiftRight_zero] at hdb
        have hchar : d.char = c.char := by
          by_cases hdc : d = c
          · rw [hdc]
          · exfalso
            refine (hforall hdmem hmem hdc).1 ⟨by omega, ?_⟩
            have hzz : c.size - d.size = 0 := by omega
            rw [hzz, Nat.shiftRight_zero]
            exact hdb.symm
        show sLoop t ((natBits c.size c.bits).drop (j + 1) ++ σ) 0 0 (acc ++ [d.char]) =
          sLoop t σ 0 0 (acc ++ [c.char])
        rw [hchar, hend, List.drop_eq_nil_of_le (by simp [length_natBits]),
          List.nil_append]
    · have hnone : (t.find? fun d : Code =>
          decide (d.size = j + 1 ∧ d.bits = c.bits >>> (c.size - (j + 1)))) = none := by
        rw [List.find?_eq_none]
        intro d hdmem
        simp only [decide_eq_true_eq, not_and]
        intro hds hdb
        have hdc : d ≠ c := by
          intro he
          rw [he] at hds
          omega
        refine (hforall hdmem hmem hdc).1 ⟨by omega, ?_⟩
        rw [hds]
        exact hdb.symm
      rw [hnone]
      exact ih (j + 1) (by omega) (by omega) σ acc

/-- The stream machine decodes a concatenation of table codes into exactly
their symbols, with no error. -/
theorem sLoop_codeStream (t : Table)
    (hpw : t.Pairwise fun c d => ¬ pref c d ∧ ¬ pref d c)
    (hwf : ∀ c ∈ t, 1 ≤ c.size ∧ c.size ≤ 32 ∧ c.bits < 2 ^ c.size) :
    ∀ (cs : List Code) (acc : List Char), (∀ c ∈ cs, c ∈ t) →
      sLoop t (codeStream cs) 0 0 acc = (acc ++ cs.map Code.char, none) := by
  intro cs
  induction cs with
  | nil =>
    intro acc _
    simp [codeStream, sLoop]
  | cons c rest ih =>
    intro acc hmem
    have hc := hmem c (by simp)
    obtain ⟨h1, h2, h3⟩ := hwf c hc
    have hstart := sLoop_code t hpw c hc h2 h3 c.size 0 (by omega) (by omega)
      (codeStream rest) acc
    rw [Nat.sub_zero] at hstart
    have hsr : c.bits >>> c.size = 0 := by
      rw [Nat.shiftRight_eq_div_pow]
      exact Nat.div_eq_of_lt h3
    rw [hsr] at hstart
    simp only [List.drop_zero] at hstart
    simp only [codeStream, codeBits]
    rw [hstart, ih (acc ++ [c.char]) (fun d hd => hmem d (List.mem_cons_of_mem _ hd))]
    simp

/-- `divideAux` preserves the length. -/
theorem divideAux_length (fuel : ℕ) (codes : List Code) :
    (divideAux fuel codes).length = codes.length := by
  have h := congrArg List.length (divideAux_map_charProb fuel codes)
  simpa using h

/-- `BuildTable` has one entry per input key. -/
theorem buildTable_length (freq : List (Char × Fr)) :
    (BuildTable freq).length = freq.length := by
  unfold BuildTable
  rw [divideAux_length, (sortCodes_perm _).length_eq, List.length_map]

/-- The word at index 0 of the fresh encoder vector has no set bits. -/
theorem bitAt_zero_word : ∀ k : ℕ, bitAt [0] k = false := by
  intro k
  unfold bitAt
  cases h : k / 32 with
  | zero => simp [h]
  | succ j => simp [h]

/-- The encoder loop keeps all words in `uint32` range. -/
theorem encodeLoop_words (t : Table) (hb : ∀ c ∈ t, c.bits < 2 ^ 32) :
    ∀ (s : List Char) (v : List ℕ) (size : ℕ) (out : List ℕ) (sz : ℕ),
      encodeLoop t s v size = .ok (out, sz) →
      (∀ w ∈ v, w < 2 ^ 32) → ∀ w ∈ out, w < 2 ^ 32 := by
  intro s
  induction s with
  | nil =>
    intro v size out sz henc hv
    simp only [encodeLoop] at henc
    obtain ⟨rfl, rfl⟩ : v = out ∧ size = sz := by
      cases henc; exact ⟨rfl, rfl⟩
    exact hv
  | cons r rest ih =>
    intro v size out sz henc hv
    simp only [encodeLoop] at henc
    cases hf : t.find? fun c => c.char = r with
    | none => rw [hf] at henc; cases henc
    | some c =>
      rw [hf] at henc
      exact ih (encStep c v size) (size + c.size) out sz henc
        (encStep_words c v size (hb c (List.mem_of_find?_eq_some hf)) hv)

/-- Unpacking the per-symbol code list produced by a successful encode run:
its symbol column is the input string and its codes live in the table. -/
theorem forall₂_find_chars (t : Table) :
    ∀ {s : List Char} {cs : List Code},
      List.Forall₂ (fun (r : Char) (c : Code) =>
        t.find? (fun x => x.char = r) = some c) s cs →
      cs.map Code.char = s ∧ ∀ c ∈ cs, c ∈ t := by
  intro s cs h
  induction h with
  | nil => exact ⟨rfl, by simp⟩
  | cons hrc htl ih =>
    refine ⟨?_, ?_⟩
    · simp only [List.map_cons, ih.1]
      have hc := List.find?_some hrc
      simp only [decide_eq_true_eq] at hc
      rw [hc]
    · intro d hd
      rcases List.mem_cons.mp hd with rfl | hd'
      · exact List.mem_of_find?_eq_some hrc
      · exact ih.2 d hd'

/-- C1, amended: the encode–decode round trip, for every table built by
`BuildTable` from a distribution with at least two symbols whose built codes
all fit in 32 bits (the counterexamples show both restrictions are needed: a
one-symbol table gets a 0-bit code that decodes to nothing, and deeper tables
wrap the `uint32` `Bits` field).  If `Encode` succeeds, `Decode` of its output
returns exactly the input string with no error. -/
theorem c1_roundTrip_amended (freq : List (Char × Fr)) (s : List Char)
    (v : List ℕ) (sz : ℕ)
    (h2 : 2 ≤ freq.length)
    (h32 : ∀ c ∈ BuildTable freq, c.size ≤ 32)
    (henc : (BuildTable freq).Encode s = .ok (v, sz)) :
    (BuildTable freq).Decode v sz = (s, none) := by
  have heq := buildTable_eq_N freq h32
  have hwfb : ∀ c ∈ BuildTable freq, c.bits < 2 ^ c.size := by
    rw [heq]; exact (buildTableN_spec freq).1
  have h1b : ∀ c ∈ BuildTable freq, 1 ≤ c.size := by
    rw [heq]; exact (buildTableN_spec freq).2.1 h2
  have hpwb : (BuildTable freq).Pairwise fun c d => ¬ pref c d ∧ ¬ pref d c := by
    rw [heq]; exact (buildTableN_spec freq).2.2
  have hb32 : ∀ c ∈ BuildTable freq, c.bits < 2 ^ 32 := by
    intro c hc
    calc c.bits < 2 ^ c.size := hwfb c hc
      _ ≤ 2 ^ 32 := Nat.pow_le_pow_right (by norm_num) (h32 c hc)
  have hlen0 : (BuildTable freq).length = freq.length := buildTable_length freq
  unfold Table.Encode at henc
  rw [if_neg (by omega)] at henc
  obtain ⟨cs, hall, hsz, hstream⟩ := encodeLoop_stream (BuildTable freq) h32 hwfb
    s [0] 0 v sz henc (by simp) (by simp)
    (by intro w hw; simp only [List.mem_singleton] at hw; subst hw; norm_num)
    (fun k _ => bitAt_zero_word k)
  have hwords : ∀ w ∈ v, w < 2 ^ 32 := encodeLoop_words (BuildTable freq) hb32
    s [0] 0 v sz henc
    (by intro w hw; simp only [List.mem_singleton] at hw; subst hw; norm_num)
  have hlenv : v.length = sz / 32 + 1 :=
    encodeLoop_len (BuildTable freq) h32 s [0] 0 v sz henc (by simp)
  obtain ⟨hchars, hmems⟩ := forall₂_find_chars (BuildTable freq) hall
  unfold Table.Decode
  rw [if_neg (by omega)]
  obtain ⟨w0, tl, rfl⟩ : ∃ w0 tl, v = w0 :: tl := by
    cases v with
    | nil => simp at hlenv
    | cons w0 tl => exact ⟨w0, tl, rfl⟩
  have htllen : tl.length = sz / 32 := by
    simp only [List.length_cons] at hlenv
    omega
  simp only [List.headD_cons, List.tail_cons]
  rw [decodeLoop_eq_sLoop (BuildTable freq) sz 0 0 0 w0 tl []
    (hwords w0 (by simp)) (fun w hw => hwords w (List.mem_cons_of_mem _ hw))
    (by omega)]
  have hstream2 : ((natBits 32 w0).take (32 - 0 % 32) ++ vecBits tl).take sz =
      codeStream cs := by
    have h0 : (32 : ℕ) - 0 % 32 = 32 := by norm_num
    rw [h0, List.take_of_length_le
      (show (natBits 32 w0).length ≤ 32 by simp [length_natBits])]
    have hs3 : (vecBits (w0 :: tl)).take sz = codeStream cs := by
      rw [hstream]
      simp
    simpa [vecBits] using hs3
  rw [hstream2,
    sLoop_codeStream (BuildTable freq) hpwb
      (fun c hc => ⟨h1b c hc, h32 c hc, hwfb c hc⟩) cs [] hmems]
  rw [List.nil_append, hchars]

/-- Witness for C1 at the two-symbol distribution `{a ↦ 2/3, b ↦ 1/3}` and
input `"aba"`: the hypotheses hold concretely and the round trip recovers the
string. -/
theorem c1_roundTrip_amended_witness :
    2 ≤ ([('a', mkFr 2 3), ('b', mkFr 1 3)] : List (Char × Fr)).length ∧
    (∀ c ∈ BuildTable [('a', mkFr 2 3), ('b', mkFr 1 3)], c.size ≤ 32) ∧
    (BuildTable [('a', mkFr 2 3), ('b', mkFr 1 3)]).Encode ['a', 'b', 'a'] =
      .ok ([1073741824], 3) ∧
    (BuildTable [('a', mkFr 2 3), ('b', mkFr 1 3)]).Decode [1073741824] 3 =
      (['a', 'b', 'a'], none) :=
  ⟨by decide, by decide, by decide,
    c1_roundTrip_amended [('a', mkFr 2 3), ('b', mkFr 1 3)] ['a', 'b', 'a']
      [1073741824] 3 (by decide) (by decide) (by decide)⟩

/-- Witness for C2 at the same two-symbol table: its two entries, truncated to
their common length 1, differ. -/
theorem c2_prefixFree_amended_witness :
    (∀ c ∈ BuildTable [('a', mkFr 2 3), ('b', mkFr 1 3)], c.size ≤ 32) ∧
    (0 : ℕ) >>> (1 - min 1 1) ≠ (1 : ℕ) >>> (1 - min 1 1) := by
  refine ⟨by decide, ?_⟩
  exact c2_prefixFree_amended [('a', mkFr 2 3), ('b', mkFr 1 3)] (by decide)
    0 1 ⟨'a', mkFr 2 3, 0, 1⟩ ⟨'b', mkFr 1 3, 1, 1⟩
    (by decide) (by decide) (by decide)

/-- Witness for C5 at a 1-bit code packed into a fresh word. -/
theorem c5_step_amended_witness :
    (⟨'a', mkFr 1 2, 1, 1⟩ : Code).size ≤ 32 ∧
    encStep ⟨'a', mkFr 1 2, 1, 1⟩ [0] 0 =
      encStepSpecStrict ⟨'a', mkFr 1 2, 1, 1⟩ [0] 0 :=
  ⟨by decide, c5_step_amended ⟨'a', mkFr 1 2, 1, 1⟩ [0] 0 (by decide)⟩

/-- Witness for C7: one word cannot store 40 bits, and `Decode` rejects it
with `InvalidVector` before producing anything. -/
theorem c7_storage_check_witness :
    ([0] : List ℕ).length ≤ 40 / 32 ∧
    t8ex.Decode [0] 40 = ([], some DecErr.invalidVector) :=
  ⟨by decide, (c7_storage_check t8ex [0] 40).2 (by decide)⟩

/-- Witness for C8: on a 34-bit stream that matches no code of `t8ex`, the
decoder fails with `NoMatchingCode` and its result is empty even though a
symbol had already been decoded. -/
theorem c8_partial_amended_witness :
    (t8ex.Decode [2147483647, 4294967295] 34).2 = some DecErr.noMatchingCode ∧
    (t8ex.Decode [2147483647, 4294967295] 34).1 = [] :=
  ⟨by decide,
    (c8_partial_amended t8ex [2147483647, 4294967295] 34).2.1 (by decide)⟩

/-- Witness for C9: encoding `"ab"` under `t8ex` uses 3 bits, and bit 5 of the
output word is zero. -/
theorem c9_zero_padding_witness :
    t8ex.Encode ['a', 'b'] = .ok ([1073741824], 3) ∧
    3 ≤ 5 ∧ bitAt [1073741824] 5 = false :=
  ⟨by decide, by decide,
    c9_zero_padding t8ex ['a', 'b'] [1073741824] 3 (by decide) 5 (by decide)⟩

/-- Witness for C10: the same 3-bit encode returns `3/32 + 1 = 1` word. -/
theorem c10_length_amended_witness :
    (∀ c ∈ t8ex, c.size ≤ 32) ∧
    (([1073741824] : List ℕ).length = 3 / 32 + 1 ∧
      3 / 32 < ([1073741824] : List ℕ).length) :=
  ⟨by decide,
    c10_length_amended t8ex ['a', 'b'] [1073741824] 3 (by decide) (by decide)⟩
